import Mathlib

/-!
# Contiguous interval tree (`ds` package)

A shallow embedding of `contiguous_interval_tree.go` and a verification of its
documented behaviour.

Modelling conventions

* A Go pointer `*ContiguousIntervalNode[K, V]` is a value of the inductive type
  `ContiguousIntervalNode K V`, whose constructor `nil` is the nil pointer.
* The `Interval[K]` interface is observed only through `Start()` and `End()`,
  so an interval is the pair of these two keys.
* `Insert` mutates the tree in place and returns a `bool`; here it returns the
  pair of that `bool` and the tree after the call.
* The visitor handed to `TraverseInOrder` is modelled by the list of the
  arguments of its successive calls.
* Go `int` results of the comparator are integers; only their sign is used.
-/

namespace ds

/-! ## Data model -/

/-- The `Interval[A]` interface: the two accessors `Start()` and `End()`. -/
structure Interval (K : Type) where
  Start : K
  End : K
deriving DecidableEq

/-- The composite literal `SimpleInterval[A]{start, end}` seen as an `Interval[A]`. -/
def SimpleInterval {K : Type} (start stop : K) : Interval K :=
  ⟨start, stop⟩

/-- A (possibly nil) pointer to a `ContiguousIntervalNode[K, V]`. -/
inductive ContiguousIntervalNode (K V : Type) where
  | nil : ContiguousIntervalNode K V
  | node (Interval : Interval K) (Value : V)
      (Left Right : ContiguousIntervalNode K V) : ContiguousIntervalNode K V
deriving DecidableEq

/-- The struct `ContiguousIntervalTree[K, V]`. -/
structure ContiguousIntervalTree (K V : Type) where
  Comparator : K → K → Int
  Root : ContiguousIntervalNode K V

/-- `NewContiguousIntervalTree`: the empty tree over a comparator. -/
def NewContiguousIntervalTree {K V : Type} (comparator : K → K → Int) :
    ContiguousIntervalTree K V :=
  { Comparator := comparator, Root := .nil }

/-- Modelled from the spec: the comparator `CompareInt` used by the tests is not among the
sources; the spec describes a comparator as a three-way ordering function returning a
negative, zero or positive number. -/
def CompareInt (a b : Int) : Int :=
  if a < b then -1 else if b < a then 1 else 0

/-! ## Operations -/

/-- `(*ContiguousIntervalNode).size`. -/
def ContiguousIntervalNode.size {K V : Type} : ContiguousIntervalNode K V → Nat
  | .nil => 0
  | .node _ _ l r => l.size + r.size + 1

/-- The body of `Insert` seen from one link of the tree (the root link, or the child link the
loop is about to follow).  An empty link receives `newNode` and the call returns `true`; an
occupied link runs one iteration of the `for` loop on the node it points to. -/
def insertLoop {K V : Type} (cmp : K → K → Int) (i : Interval K) (value : V) :
    ContiguousIntervalNode K V → Bool × ContiguousIntervalNode K V
  | .nil => (true, .node i value .nil .nil)
  | .node ci cv l r =>
    if cmp i.Start ci.Start ≤ 0 then
      if cmp i.End ci.Start > 0 then
        (false, .node ci cv l r)
      else
        let res := insertLoop cmp i value l
        (res.1, .node ci cv res.2 r)
    else if cmp i.Start ci.End ≥ 0 then
      let res := insertLoop cmp i value r
      (res.1, .node ci cv l res.2)
    else
      (false, .node ci cv l r)

/-- `(*ContiguousIntervalTree).Insert`: the returned `bool` and the tree after the call. -/
def ContiguousIntervalTree.Insert {K V : Type} (t : ContiguousIntervalTree K V)
    (i : Interval K) (value : V) : Bool × ContiguousIntervalTree K V :=
  let res := insertLoop t.Comparator i value t.Root
  (res.1, { Comparator := t.Comparator, Root := res.2 })

/-- The three kinds of pointer `search` returns: `nil`, a fresh empty node
(`&ContiguousIntervalNode[K, V]{}`), or a node of the tree. -/
inductive SearchResult (K V : Type) where
  | absent : SearchResult K V
  | sentinel : SearchResult K V
  | found (n : ContiguousIntervalNode K V) : SearchResult K V
deriving DecidableEq

/-- The loop of `search`, with its counters `sum` and `height`.  The `nil` case is the
initial test `t.Root == nil`; inside the loop a nil child is tested before it is followed. -/
def searchLoop {K V : Type} (cmp : K → K → Int) (point : K) :
    ContiguousIntervalNode K V → Int → Int → SearchResult K V
  | .nil, _, _ => .absent
  | .node ci cv l r, sum, height =>
    if cmp point ci.Start < 0 then
      match l with
      | .nil => if -sum = height then .absent else .sentinel
      | .node li lv ll lr => searchLoop cmp point (.node li lv ll lr) (sum - 1) (height + 1)
    else if cmp point ci.End > 0 then
      match r with
      | .nil => if sum = height then .absent else .sentinel
      | .node ri rv rl rr => searchLoop cmp point (.node ri rv rl rr) (sum + 1) (height + 1)
    else
      .found (.node ci cv l r)

/-- `(*ContiguousIntervalTree).search`. -/
def ContiguousIntervalTree.search {K V : Type} (t : ContiguousIntervalTree K V) (point : K) :
    SearchResult K V :=
  searchLoop t.Comparator point t.Root 0 0

/-- `(*ContiguousIntervalTree).Find`: `search(point) != nil`. -/
def ContiguousIntervalTree.Find {K V : Type} (t : ContiguousIntervalTree K V) (point : K) :
    Bool :=
  match t.search point with
  | .absent => false
  | _ => true

/-- `(*ContiguousIntervalTree).Size`. -/
def ContiguousIntervalTree.Size {K V : Type} (t : ContiguousIntervalTree K V) : Nat :=
  match t.Root with
  | .nil => 0
  | .node ci cv l r => (ContiguousIntervalNode.node ci cv l r).size

/-- The closure `inOrder` of `TraverseInOrder`.  The state is the captured variable
`lastInterval` together with the calls made to the visitor `f` so far; `zero` is the zero
value of `V`. -/
def inOrder {K V : Type} (cmp : K → K → Int) (zero : V) :
    ContiguousIntervalNode K V → Option (Interval K) × List (Interval K × V) →
      Option (Interval K) × List (Interval K × V)
  | .nil, st => st
  | .node ci cv l r, st =>
    let st1 := inOrder cmp zero l st
    let out :=
      match st1.1 with
      | some lastInterval =>
        if cmp lastInterval.End ci.Start < 0 then
          st1.2 ++ [(SimpleInterval lastInterval.End ci.Start, zero)]
        else st1.2
      | none => st1.2
    inOrder cmp zero r (some ci, out ++ [(ci, cv)])

/-- `(*ContiguousIntervalTree).TraverseInOrder`: the sequence of calls made to the visitor. -/
def ContiguousIntervalTree.TraverseInOrder {K V : Type} (t : ContiguousIntervalTree K V)
    (zero : V) : List (Interval K × V) :=
  (inOrder t.Comparator zero t.Root (none, [])).2

/-- `(*ContiguousIntervalTree).NumIntervals`: the visitor increments `count` at each call. -/
def ContiguousIntervalTree.NumIntervals {K V : Type} (t : ContiguousIntervalTree K V)
    (zero : V) : Nat :=
  (t.TraverseInOrder zero).length

/-! ## Specification vocabulary -/

/-- The stored `(interval, value)` pairs, left subtree, then the node, then right subtree. -/
def ContiguousIntervalNode.toList {K V : Type} :
    ContiguousIntervalNode K V → List (Interval K × V)
  | .nil => []
  | .node ci cv l r => l.toList ++ (ci, cv) :: r.toList

/-- The stored intervals in left-self-right order. -/
def ContiguousIntervalNode.intervals {K V : Type} (n : ContiguousIntervalNode K V) :
    List (Interval K) :=
  n.toList.map Prod.fst

/-- The tree after a sequence of `Insert` calls, whatever each call returned. -/
def insertAll {K V : Type} (t : ContiguousIntervalTree K V) :
    List (Interval K × V) → ContiguousIntervalTree K V
  | [] => t
  | p :: ps => insertAll (t.Insert p.1 p.2).2 ps

/-- The `bool`s returned by a sequence of `Insert` calls, in call order. -/
def insertResults {K V : Type} (t : ContiguousIntervalTree K V) :
    List (Interval K × V) → List Bool
  | [] => []
  | p :: ps => (t.Insert p.1 p.2).1 :: insertResults (t.Insert p.1 p.2).2 ps

/-- A comparator is a total order when its sign is that of a linear order on the keys. -/
structure TotalOrderCmp {K : Type} [LinearOrder K] (cmp : K → K → Int) : Prop where
  neg_iff : ∀ a b, cmp a b < 0 ↔ a < b
  zero_iff : ∀ a b, cmp a b = 0 ↔ a = b

/-- The search-tree invariant of the interval tree: every stored interval has `Start ≤ End`,
everything in a left subtree ends at or before the node's start, and everything in a right
subtree starts at or after the node's end. -/
def Ordered {K V : Type} [LinearOrder K] : ContiguousIntervalNode K V → Prop
  | .nil => True
  | .node ci _ l r =>
    ci.Start ≤ ci.End ∧ (∀ x ∈ l.intervals, x.End ≤ ci.Start) ∧
      (∀ x ∈ r.intervals, ci.End ≤ x.Start) ∧ Ordered l ∧ Ordered r

/-- One empty link of the first tree (the tree itself when it is empty, or an empty child slot
of one of its nodes) is replaced by `leaf` in the second; every node of the first tree keeps its
interval, its value and its other links. -/
inductive AttachedAt {K V : Type} (leaf : ContiguousIntervalNode K V) :
    ContiguousIntervalNode K V → ContiguousIntervalNode K V → Prop where
  | here : AttachedAt leaf .nil leaf
  | left (ci : Interval K) (cv : V) (l l2 r : ContiguousIntervalNode K V) :
      AttachedAt leaf l l2 → AttachedAt leaf (.node ci cv l r) (.node ci cv l2 r)
  | right (ci : Interval K) (cv : V) (l r r2 : ContiguousIntervalNode K V) :
      AttachedAt leaf r r2 → AttachedAt leaf (.node ci cv l r) (.node ci cv l r2)

/-- The reference traversal, written from the specification: the stored pairs in order, with
one synthetic pair `(SimpleInterval{x.end, y.start}, zero)` between two consecutive stored
intervals `x` then `y` when `cmp(x.end, y.start) < 0`, and nothing otherwise. -/
def referenceTraversal {K V : Type} (cmp : K → K → Int) (zero : V) :
    List (Interval K × V) → List (Interval K × V)
  | [] => []
  | [x] => [x]
  | x :: y :: rest =>
    if cmp x.1.End y.1.Start < 0 then
      x :: (SimpleInterval x.1.End y.1.Start, zero) :: referenceTraversal cmp zero (y :: rest)
    else
      x :: referenceTraversal cmp zero (y :: rest)

/-- The smallest start among a list of intervals, `none` for the empty list. -/
def minStartOf {K : Type} (cmp : K → K → Int) : List (Interval K) → Option K
  | [] => none
  | x :: xs =>
    match minStartOf cmp xs with
    | none => some x.Start
    | some m => if cmp x.Start m ≤ 0 then some x.Start else some m

/-- The largest end among a list of intervals, `none` for the empty list. -/
def maxEndOf {K : Type} (cmp : K → K → Int) : List (Interval K) → Option K
  | [] => none
  | x :: xs =>
    match maxEndOf cmp xs with
    | none => some x.End
    | some m => if cmp m x.End < 0 then some x.End else some m

/-- The value of `lastInterval` after the pairs `xs` have been visited. -/
def lastAfter {K V : Type} (last : Option (Interval K)) :
    List (Interval K × V) → Option (Interval K)
  | [] => last
  | x :: xs => lastAfter (some x.1) xs

/-- The visitor calls made while the pairs `xs` are visited, starting with `lastInterval = last`. -/
def emitFrom {K V : Type} (cmp : K → K → Int) (zero : V) :
    Option (Interval K) → List (Interval K × V) → List (Interval K × V)
  | _, [] => []
  | none, x :: xs => x :: emitFrom cmp zero (some x.1) xs
  | some l, x :: xs =>
    if cmp l.End x.1.Start < 0 then
      (SimpleInterval l.End x.1.Start, zero) :: x :: emitFrom cmp zero (some x.1) xs
    else
      x :: emitFrom cmp zero (some x.1) xs

/-- The tree after `n` further `Insert` calls of the same interval `i`, the `k`-th call
(counted from zero) carrying the value `vs k`. -/
def repeatInsert {K V : Type} (t : ContiguousIntervalTree K V) (i : Interval K) (vs : Nat → V) :
    Nat → ContiguousIntervalTree K V
  | 0 => t
  | k + 1 => ((repeatInsert t i vs k).Insert i (vs k)).2

/-- The number of strict gaps in a list of intervals: the pairs of consecutive intervals
`x` then `y` with `cmp(x.end, y.start) < 0`. -/
def gapCount {K : Type} (cmp : K → K → Int) : List (Interval K) → Nat
  | [] => 0
  | [_] => 0
  | x :: y :: rest =>
    (if cmp x.End y.Start < 0 then 1 else 0) + gapCount cmp (y :: rest)

/-- The ordering invariant I1, in the words of the specification: at every node, each interval
of the left subtree has `start <= node.start` and `end <= node.start`, and each interval of the
right subtree has `start >= node.end`. -/
def OrderingI1 {K V : Type} (cmp : K → K → Int) : ContiguousIntervalNode K V → Prop
  | .nil => True
  | .node ci _ l r =>
    (∀ x ∈ l.intervals, cmp x.Start ci.Start ≤ 0 ∧ cmp x.End ci.Start ≤ 0) ∧
      (∀ x ∈ r.intervals, cmp x.Start ci.End ≥ 0) ∧ OrderingI1 cmp l ∧ OrderingI1 cmp r

/-- The nodes of a tree (the non-nil pointers reachable from it), in left-self-right order. -/
def ContiguousIntervalNode.nodes {K V : Type} :
    ContiguousIntervalNode K V → List (ContiguousIntervalNode K V)
  | .nil => []
  | .node ci cv l r => l.nodes ++ .node ci cv l r :: r.nodes

/-! ## The stack (`stack.go`) -/

/-- `Stack[A]`: a slice of items, the top of the stack being its last element. -/
abbrev Stack (A : Type) := List A

/-- `NewStack`. -/
def NewStack {A : Type} : Stack A := []

/-- `(*Stack).Size`. -/
def Stack.Size {A : Type} (s : Stack A) : Nat := s.length

/-- `(*Stack).IsEmpty`. -/
def Stack.IsEmpty {A : Type} (s : Stack A) : Bool := s.Size == 0

/-- `(*Stack).Push`: `append(*s, items...)`. -/
def Stack.Push {A : Type} (s : Stack A) (items : List A) : Stack A := s ++ items

/-- `(*Stack).Pop`: the returned pair and the stack after the call.  `zero` is `zeroValue[A]()`;
the slot cleared before the slice is shortened lies outside the new slice. -/
def Stack.Pop {A : Type} (zero : A) (s : Stack A) : (A × Bool) × Stack A :=
  if s.IsEmpty then ((zero, false), s)
  else ((s.getD (s.Size - 1) zero, true), s.take (s.Size - 1))

/-- `(*Stack).Peek`: the returned pair and the stack after the call. -/
def Stack.Peek {A : Type} (zero : A) (s : Stack A) : (A × Bool) × Stack A :=
  if s.IsEmpty then ((zero, false), s)
  else ((s.getD (s.Size - 1) zero, true), s)

/-- `(*Stack).Reset`: `(*s)[:0]`. -/
def Stack.Reset {A : Type} (s : Stack A) : Stack A := s.take 0

/-- The results of `n` successive `Pop` calls, in call order, and the stack after them. -/
def Stack.popN {A : Type} (zero : A) : Nat → Stack A → List (A × Bool) × Stack A
  | 0, s => ([], s)
  | n + 1, s =>
    let rest := Stack.popN zero n (Stack.Pop zero s).2
    ((Stack.Pop zero s).1 :: rest.1, rest.2)

/-! ## The binary tree (`binary_tree.go`) -/

/-- A (possibly nil) pointer to a `TreeNode[A]`. -/
inductive TreeNode (A : Type) where
  | nil : TreeNode A
  | node (Value : A) (Left Right : TreeNode A) : TreeNode A
deriving DecidableEq

/-- The struct `BinaryTree[A]`. -/
structure BinaryTree (A : Type) where
  Root : TreeNode A
  Comparator : A → A → Int

/-- `NewBinaryTree`. -/
def NewBinaryTree {A : Type} (comparator : A → A → Int) : BinaryTree A :=
  { Root := .nil, Comparator := comparator }

/-- The body of `BinaryTree.Insert` seen from one link of the tree: an empty link receives
`newNode`; an occupied link runs one iteration of the `for` loop on its node. -/
def BinaryTree.insertLoop {A : Type} (cmp : A → A → Int) (value : A) : TreeNode A → TreeNode A
  | .nil => .node value .nil .nil
  | .node cv l r =>
    if cmp value cv < 0 then
      .node cv (BinaryTree.insertLoop cmp value l) r
    else
      .node cv l (BinaryTree.insertLoop cmp value r)

/-- `(*BinaryTree).Insert`: the tree after the call. -/
def BinaryTree.Insert {A : Type} (t : BinaryTree A) (value : A) : BinaryTree A :=
  { Root := BinaryTree.insertLoop t.Comparator value t.Root, Comparator := t.Comparator }

/-- The closure `inOrder` of `BinaryTree.TraverseInOrder`; the state is the list of the calls
made to the visitor so far. -/
def BinaryTree.inOrder {A : Type} : TreeNode A → List A → List A
  | .nil, out => out
  | .node v l r, out => BinaryTree.inOrder r (BinaryTree.inOrder l out ++ [v])

/-- `(*BinaryTree).TraverseInOrder`: the sequence of values handed to the visitor. -/
def BinaryTree.TraverseInOrder {A : Type} (t : BinaryTree A) : List A :=
  BinaryTree.inOrder t.Root []

/-- The binary tree after the values `xs` have been inserted one by one. -/
def BinaryTree.insertAll {A : Type} (t : BinaryTree A) : List A → BinaryTree A
  | [] => t
  | x :: xs => BinaryTree.insertAll (t.Insert x) xs

/-- The values of a binary tree, left subtree, then the node, then right subtree. -/
def TreeNode.toList {A : Type} : TreeNode A → List A
  | .nil => []
  | .node v l r => l.toList ++ v :: r.toList

/-- A comparator is a total preorder when the sign of `cmp a b` is opposite to that of
`cmp b a` and `cmp a b ≤ 0` is transitive. -/
structure TotalPreorderCmp {A : Type} (cmp : A → A → Int) : Prop where
  swap : ∀ a b, cmp a b < 0 ↔ 0 < cmp b a
  trans : ∀ a b c, cmp a b ≤ 0 → cmp b c ≤ 0 → cmp a c ≤ 0

/-- Stable insertion into a list: `v` goes just before the first element it is strictly
smaller than, hence after every element that compares equal to it. -/
def stableInsert {A : Type} (cmp : A → A → Int) (v : A) : List A → List A
  | [] => [v]
  | x :: xs => if cmp v x < 0 then v :: x :: xs else x :: stableInsert cmp v xs

/-- Stable insertion sort: the elements are inserted one by one, in list order. -/
def stableSort {A : Type} (cmp : A → A → Int) (acc : List A) : List A → List A
  | [] => acc
  | x :: xs => stableSort cmp (stableInsert cmp x acc) xs

/-- A comparator on keyed records that looks at the key only: a total preorder in which
distinct records may compare equal. -/
def compareKey (a b : Int × String) : Int :=
  CompareInt a.1 b.1

/-! ## Comparator lemmas -/

section Comparator

variable {K : Type} [LinearOrder K] {cmp : K → K → Int}

theorem TotalOrderCmp.pos_iff (hc : TotalOrderCmp cmp) (a b : K) : 0 < cmp a b ↔ b < a := by
  constructor
  · intro h
    rcases lt_trichotomy a b with hab | hab | hab
    · have := (hc.neg_iff a b).2 hab
      omega
    · have := (hc.zero_iff a b).2 hab
      omega
    · exact hab
  · intro h
    rcases lt_trichotomy (cmp a b) 0 with hab | hab | hab
    · exact absurd ((hc.neg_iff a b).1 hab) (not_lt_of_gt h)
    · exact absurd ((hc.zero_iff a b).1 hab) (ne_of_gt h)
    · exact hab

theorem TotalOrderCmp.le_iff (hc : TotalOrderCmp cmp) (a b : K) : cmp a b ≤ 0 ↔ a ≤ b := by
  rw [← not_lt, hc.pos_iff, not_lt]

theorem TotalOrderCmp.nonneg_iff (hc : TotalOrderCmp cmp) (a b : K) : 0 ≤ cmp a b ↔ b ≤ a := by
  rw [← not_lt, hc.neg_iff, not_lt]

theorem compareInt_totalOrder : TotalOrderCmp CompareInt := by
  constructor
  · intro a b
    unfold CompareInt
    split_ifs <;> omega
  · intro a b
    unfold CompareInt
    split_ifs with h1 h2
    · simp only [Int.reduceNeg, neg_eq_zero, one_ne_zero, false_iff]; omega
    · simp only [one_ne_zero, false_iff]; omega
    · simp only [true_iff]; omega

end Comparator

/-! ## Lemmas on `Insert` -/

section InsertLemmas

variable {K V : Type}

theorem mem_intervals_node (x ci : Interval K) (cv : V) (l r : ContiguousIntervalNode K V) :
    x ∈ (ContiguousIntervalNode.node ci cv l r).intervals ↔
      x ∈ l.intervals ∨ x = ci ∨ x ∈ r.intervals := by
  simp [ContiguousIntervalNode.intervals, ContiguousIntervalNode.toList]

theorem insertLoop_false_unchanged (cmp : K → K → Int) (i : Interval K) (v : V) :
    ∀ t : ContiguousIntervalNode K V, (insertLoop cmp i v t).1 = false →
      (insertLoop cmp i v t).2 = t := by
  intro t
  induction t with
  | nil => intro h; simp [insertLoop] at h
  | node ci cv l r ihl ihr =>
    intro h
    unfold insertLoop at h ⊢
    split_ifs at h ⊢ with h1 h2 h3
    · rfl
    · simp only at h ⊢
      rw [ihl h]
    · simp only at h ⊢
      rw [ihr h]
    · rfl

theorem insertLoop_true_attached (cmp : K → K → Int) (i : Interval K) (v : V) :
    ∀ t : ContiguousIntervalNode K V, (insertLoop cmp i v t).1 = true →
      AttachedAt (.node i v .nil .nil) t (insertLoop cmp i v t).2 := by
  intro t
  induction t with
  | nil => intro _; exact AttachedAt.here
  | node ci cv l r ihl ihr =>
    intro h
    unfold insertLoop at h ⊢
    split_ifs at h ⊢ with h1 h2 h3
    · exact AttachedAt.left _ _ _ _ _ (ihl h)
    · exact AttachedAt.right _ _ _ _ _ (ihr h)

theorem attachedAt_toList_perm {leaf t t2 : ContiguousIntervalNode K V}
    (h : AttachedAt leaf t t2) : t2.toList.Perm (leaf.toList ++ t.toList) := by
  induction h with
  | here => simp [ContiguousIntervalNode.toList]
  | left ci cv l l2 r _ ih =>
    simp only [ContiguousIntervalNode.toList]
    calc l2.toList ++ (ci, cv) :: r.toList
        |>.Perm ((leaf.toList ++ l.toList) ++ (ci, cv) :: r.toList) :=
          List.Perm.append_right _ ih
      _ = leaf.toList ++ (l.toList ++ (ci, cv) :: r.toList) := by simp
  | right ci cv l r r2 _ ih =>
    simp only [ContiguousIntervalNode.toList]
    have h1 : (l.toList ++ (ci, cv) :: r2.toList).Perm
        (l.toList ++ (ci, cv) :: (leaf.toList ++ r.toList)) :=
      List.Perm.append_left _ (List.Perm.cons _ ih)
    refine h1.trans ?_
    have h2 : l.toList ++ (ci, cv) :: (leaf.toList ++ r.toList)
        = (l.toList ++ [(ci, cv)]) ++ (leaf.toList ++ r.toList) := by simp
    have h3 : leaf.toList ++ (l.toList ++ (ci, cv) :: r.toList)
        = leaf.toList ++ ((l.toList ++ [(ci, cv)]) ++ r.toList) := by simp
    rw [h2, h3, ← List.append_assoc, ← List.append_assoc]
    exact List.Perm.append_right _ List.perm_append_comm

theorem attachedAt_size {leaf t t2 : ContiguousIntervalNode K V}
    (h : AttachedAt leaf t t2) : t2.size = t.size + leaf.size := by
  induction h with
  | here => simp [ContiguousIntervalNode.size]
  | left ci cv l l2 r _ ih => simp only [ContiguousIntervalNode.size, ih]; omega
  | right ci cv l r r2 _ ih => simp only [ContiguousIntervalNode.size, ih]; omega

theorem mem_intervals_insertLoop (cmp : K → K → Int) (i : Interval K) (v : V) :
    ∀ (t : ContiguousIntervalNode K V) (x : Interval K),
      x ∈ (insertLoop cmp i v t).2.intervals → x = i ∨ x ∈ t.intervals := by
  intro t
  induction t with
  | nil =>
    intro x hx
    simpa [insertLoop, ContiguousIntervalNode.intervals, ContiguousIntervalNode.toList] using hx
  | node ci cv l r ihl ihr =>
    intro x hx
    unfold insertLoop at hx
    split_ifs at hx with h1 h2 h3
    · exact Or.inr hx
    · simp only [mem_intervals_node] at hx ⊢
      rcases hx with hx | hx | hx
      · rcases ihl x hx with h | h
        · exact Or.inl h
        · exact Or.inr (Or.inl h)
      · exact Or.inr (Or.inr (Or.inl hx))
      · exact Or.inr (Or.inr (Or.inr hx))
    · simp only [mem_intervals_node] at hx ⊢
      rcases hx with hx | hx | hx
      · exact Or.inr (Or.inl hx)
      · exact Or.inr (Or.inr (Or.inl hx))
      · rcases ihr x hx with h | h
        · exact Or.inl h
        · exact Or.inr (Or.inr (Or.inr h))
    · exact Or.inr hx

theorem insertLoop_ordered [LinearOrder K] {cmp : K → K → Int} (hc : TotalOrderCmp cmp)
    (i : Interval K) (v : V) (hi : i.Start ≤ i.End) :
    ∀ t : ContiguousIntervalNode K V, Ordered t → Ordered (insertLoop cmp i v t).2 := by
  intro t
  induction t with
  | nil =>
    intro _
    simp [insertLoop, Ordered, hi, ContiguousIntervalNode.intervals,
      ContiguousIntervalNode.toList]
  | node ci cv l r ihl ihr =>
    intro ho
    obtain ⟨hci, hl, hr, hol, hor⟩ := ho
    unfold insertLoop
    split_ifs with h1 h2 h3
    · exact ⟨hci, hl, hr, hol, hor⟩
    · refine ⟨hci, ?_, hr, ihl hol, hor⟩
      intro x hx
      rcases mem_intervals_insertLoop cmp i v l x hx with h | h
      · subst h
        exact not_lt.1 (fun hlt => h2 ((hc.pos_iff _ _).2 hlt))
      · exact hl x h
    · refine ⟨hci, hl, ?_, hol, ihr hor⟩
      intro x hx
      rcases mem_intervals_insertLoop cmp i v r x hx with h | h
      · subst h
        exact (hc.nonneg_iff _ _).1 h3
      · exact hr x h
    · exact ⟨hci, hl, hr, hol, hor⟩

theorem insertAll_comparator (t : ContiguousIntervalTree K V) (ops : List (Interval K × V)) :
    (insertAll t ops).Comparator = t.Comparator := by
  induction ops generalizing t with
  | nil => rfl
  | cons p ps ih => simp only [insertAll]; rw [ih]; rfl

theorem insertAll_ordered [LinearOrder K] (t : ContiguousIntervalTree K V)
    (hc : TotalOrderCmp t.Comparator) (ops : List (Interval K × V))
    (hops : ∀ p ∈ ops, t.Comparator p.1.Start p.1.End ≤ 0) (ht : Ordered t.Root) :
    Ordered (insertAll t ops).Root := by
  induction ops generalizing t with
  | nil => exact ht
  | cons p ps ih =>
    simp only [insertAll]
    apply ih
    · exact hc
    · intro q hq
      exact hops q (List.mem_cons_of_mem _ hq)
    · exact insertLoop_ordered hc p.1 p.2
        ((hc.le_iff _ _).1 (hops p (List.mem_cons_self _ _))) t.Root ht

theorem built_ordered [LinearOrder K] {cmp : K → K → Int} (hc : TotalOrderCmp cmp)
    (ops : List (Interval K × V)) (hops : ∀ p ∈ ops, cmp p.1.Start p.1.End ≤ 0) :
    Ordered (insertAll (NewContiguousIntervalTree cmp) ops).Root :=
  insertAll_ordered (NewContiguousIntervalTree cmp) hc ops hops trivial

theorem insertLoop_overlap [LinearOrder K] {cmp : K → K → Int} (hc : TotalOrderCmp cmp)
    (i : Interval K) (v : V) :
    ∀ t : ContiguousIntervalNode K V, Ordered t →
      ∀ x ∈ t.intervals, i.Start < x.End → x.Start < i.End →
        (insertLoop cmp i v t).1 = false := by
  intro t
  induction t with
  | nil =>
    intro _ x hx
    simp [ContiguousIntervalNode.intervals, ContiguousIntervalNode.toList] at hx
  | node ci cv l r ihl ihr =>
    intro ho x hx hs he
    obtain ⟨hci, hl, hr, hol, hor⟩ := ho
    unfold insertLoop
    split_ifs with h1 h2 h3
    · rfl
    · have hie : i.End ≤ ci.Start := not_lt.1 (fun hlt => h2 ((hc.pos_iff _ _).2 hlt))
      rcases (mem_intervals_node x ci cv l r).1 hx with hm | hm | hm
      · exact ihl hol x hm hs he
      · subst hm
        exact absurd he (not_lt.2 hie)
      · exact absurd he (not_lt.2 (hie.trans (hci.trans (hr x hm))))
    · have his : ci.End ≤ i.Start := (hc.nonneg_iff _ _).1 h3
      rcases (mem_intervals_node x ci cv l r).1 hx with hm | hm | hm
      · have hlt : ci.Start < i.Start := not_le.1 (fun hle => h1 ((hc.le_iff _ _).2 hle))
        exact absurd hs (not_lt.2 ((hl x hm).trans hlt.le))
      · subst hm
        exact absurd hs (not_lt.2 his)
      · exact ihr hor x hm hs he
    · rfl

theorem insert_false_unchanged (t : ContiguousIntervalTree K V) (i : Interval K) (v : V)
    (h : (t.Insert i v).1 = false) : (t.Insert i v).2 = t := by
  cases t with
  | mk c root =>
    simp only [ContiguousIntervalTree.Insert] at h ⊢
    rw [insertLoop_false_unchanged c i v root h]

theorem size_eq_root_size (t : ContiguousIntervalTree K V) : t.Size = t.Root.size := by
  cases t with
  | mk c root => cases root <;> rfl

theorem size_eq_length_toList :
    ∀ t : ContiguousIntervalNode K V, t.size = t.toList.length := by
  intro t
  induction t with
  | nil => rfl
  | node ci cv l r ihl ihr =>
    simp only [ContiguousIntervalNode.size, ContiguousIntervalNode.toList, List.length_append,
      List.length_cons, ihl, ihr]
    omega

theorem insert_true_size (t : ContiguousIntervalTree K V) (i : Interval K) (v : V)
    (h : (t.Insert i v).1 = true) : (t.Insert i v).2.Size = t.Size + 1 := by
  rw [size_eq_root_size, size_eq_root_size]
  have := attachedAt_size (insertLoop_true_attached t.Comparator i v t.Root h)
  simpa [ContiguousIntervalNode.size] using this

theorem insert_false_size (t : ContiguousIntervalTree K V) (i : Interval K) (v : V)
    (h : (t.Insert i v).1 = false) : (t.Insert i v).2.Size = t.Size := by
  rw [insert_false_unchanged t i v h]

theorem insertLoop_node_left (cmp : K → K → Int) (i : Interval K) (v : V) (ci : Interval K)
    (cv : V) (l r : ContiguousIntervalNode K V) (h1 : cmp i.Start ci.Start ≤ 0)
    (h2 : ¬ cmp i.End ci.Start > 0) :
    insertLoop cmp i v (.node ci cv l r)
      = ((insertLoop cmp i v l).1, .node ci cv (insertLoop cmp i v l).2 r) := by
  rw [insertLoop, if_pos h1, if_neg h2]

theorem insertLoop_node_right (cmp : K → K → Int) (i : Interval K) (v : V) (ci : Interval K)
    (cv : V) (l r : ContiguousIntervalNode K V) (h1 : ¬ cmp i.Start ci.Start ≤ 0)
    (h3 : cmp i.Start ci.End ≥ 0) :
    insertLoop cmp i v (.node ci cv l r)
      = ((insertLoop cmp i v r).1, .node ci cv l (insertLoop cmp i v r).2) := by
  rw [insertLoop, if_neg h1, if_pos h3]

theorem insertLoop_node_false (cmp : K → K → Int) (i : Interval K) (v : V) (ci : Interval K)
    (cv : V) (l r : ContiguousIntervalNode K V)
    (h : (cmp i.Start ci.Start ≤ 0 ∧ cmp i.End ci.Start > 0) ∨
      (¬ cmp i.Start ci.Start ≤ 0 ∧ ¬ cmp i.Start ci.End ≥ 0)) :
    insertLoop cmp i v (.node ci cv l r) = (false, .node ci cv l r) := by
  rcases h with ⟨h1, h2⟩ | ⟨h1, h3⟩
  · rw [insertLoop, if_pos h1, if_pos h2]
  · rw [insertLoop, if_neg h1, if_neg h3]

/-- A zero-length interval that was accepted once is accepted again, whatever the comparator. -/
theorem insertLoop_point_again (cmp : K → K → Int) (p : K) (v w : V) :
    ∀ t : ContiguousIntervalNode K V, (insertLoop cmp (SimpleInterval p p) v t).1 = true →
      (insertLoop cmp (SimpleInterval p p) w (insertLoop cmp (SimpleInterval p p) v t).2).1
        = true := by
  intro t
  induction t with
  | nil =>
    intro _
    simp only [insertLoop, SimpleInterval]
    split_ifs with h1 h2 h3
    · omega
    · rfl
    · rfl
    · omega
  | node ci cv l r ihl ihr =>
    intro h
    by_cases h1 : cmp (SimpleInterval p p).Start ci.Start ≤ 0
    · by_cases h2 : cmp (SimpleInterval p p).End ci.Start > 0
      · rw [insertLoop_node_false cmp _ v ci cv l r (Or.inl ⟨h1, h2⟩)] at h
        cases h
      · rw [insertLoop_node_left cmp _ v ci cv l r h1 h2] at h ⊢
        rw [insertLoop_node_left cmp _ w ci cv _ r h1 h2]
        exact ihl h
    · by_cases h3 : cmp (SimpleInterval p p).Start ci.End ≥ 0
      · rw [insertLoop_node_right cmp _ v ci cv l r h1 h3] at h ⊢
        rw [insertLoop_node_right cmp _ w ci cv l _ h1 h3]
        exact ihr h
      · rw [insertLoop_node_false cmp _ v ci cv l r (Or.inr ⟨h1, h3⟩)] at h
        cases h

theorem insert_point_again (t : ContiguousIntervalTree K V) (p : K) (v w : V)
    (h : (t.Insert (SimpleInterval p p) v).1 = true) :
    ((t.Insert (SimpleInterval p p) v).2.Insert (SimpleInterval p p) w).1 = true :=
  insertLoop_point_again t.Comparator p v w t.Root h

theorem repeatInsert_point_succeeds (t : ContiguousIntervalTree K V) (p : K) (v : V)
    (vs : Nat → V) (h : (t.Insert (SimpleInterval p p) v).1 = true) :
    ∀ k : Nat, ((repeatInsert (t.Insert (SimpleInterval p p) v).2 (SimpleInterval p p) vs
      k).Insert (SimpleInterval p p) (vs k)).1 = true := by
  intro k
  induction k with
  | zero => exact insert_point_again t p v (vs 0) h
  | succ k ih => exact insert_point_again _ p (vs k) (vs (k + 1)) ih

theorem insertAll_size (t : ContiguousIntervalTree K V) (ops : List (Interval K × V)) :
    (insertAll t ops).Size = t.Size + (insertResults t ops).count true := by
  induction ops generalizing t with
  | nil => rfl
  | cons p ps ih =>
    simp only [insertAll, insertResults]
    rw [ih]
    cases hres : (t.Insert p.1 p.2).1 with
    | false => rw [insert_false_size t p.1 p.2 hres]; simp
    | true => rw [insert_true_size t p.1 p.2 hres]; simp; omega

theorem insertLoop_point_false [LinearOrder K] {cmp : K → K → Int} (hc : TotalOrderCmp cmp)
    (p : K) (v : V) :
    ∀ t : ContiguousIntervalNode K V, (insertLoop cmp (SimpleInterval p p) v t).1 = false →
      ∃ x ∈ t.intervals, x.Start < p ∧ p < x.End := by
  intro t
  induction t with
  | nil => intro h; simp [insertLoop] at h
  | node ci cv l r ihl ihr =>
    intro h
    unfold insertLoop at h
    simp only [SimpleInterval] at h
    split_ifs at h with h1 h2 h3
    · exact absurd ((hc.pos_iff _ _).1 h2) (not_lt.2 ((hc.le_iff _ _).1 h1))
    · obtain ⟨x, hx, hxp⟩ := ihl h
      exact ⟨x, (mem_intervals_node x ci cv l r).2 (Or.inl hx), hxp⟩
    · obtain ⟨x, hx, hxp⟩ := ihr h
      exact ⟨x, (mem_intervals_node x ci cv l r).2 (Or.inr (Or.inr hx)), hxp⟩
    · refine ⟨ci, (mem_intervals_node ci ci cv l r).2 (Or.inr (Or.inl rfl)), ?_, ?_⟩
      · exact not_le.1 (fun hle => h1 ((hc.le_iff _ _).2 hle))
      · exact not_le.1 (fun hle => h3 ((hc.nonneg_iff _ _).2 hle))

end InsertLemmas

/-! ## Lemmas on `TraverseInOrder` -/

section TraverseLemmas

variable {K V : Type}

theorem lastAfter_append (last : Option (Interval K)) (xs ys : List (Interval K × V)) :
    lastAfter last (xs ++ ys) = lastAfter (lastAfter last xs) ys := by
  induction xs generalizing last with
  | nil => rfl
  | cons x xs ih =>
    show lastAfter (some x.1) (xs ++ ys) = lastAfter (lastAfter (some x.1) xs) ys
    exact ih _

theorem emitFrom_append (cmp : K → K → Int) (zero : V) (last : Option (Interval K))
    (xs ys : List (Interval K × V)) :
    emitFrom cmp zero last (xs ++ ys)
      = emitFrom cmp zero last xs ++ emitFrom cmp zero (lastAfter last xs) ys := by
  induction xs generalizing last with
  | nil => cases last <;> cases ys <;> simp [emitFrom, lastAfter]
  | cons x xs ih =>
    cases last with
    | none =>
      show x :: emitFrom cmp zero (some x.1) (xs ++ ys) = _
      rw [ih]
      rfl
    | some l =>
      rw [List.cons_append]
      simp only [emitFrom, lastAfter]
      split_ifs <;> simp [ih]

theorem inOrder_eq (cmp : K → K → Int) (zero : V) :
    ∀ (t : ContiguousIntervalNode K V) (last : Option (Interval K))
      (out : List (Interval K × V)),
      inOrder cmp zero t (last, out)
        = (lastAfter last t.toList, out ++ emitFrom cmp zero last t.toList) := by
  intro t
  induction t with
  | nil => intro last out; cases last <;> simp [inOrder, ContiguousIntervalNode.toList, lastAfter, emitFrom]
  | node ci cv l r ihl ihr =>
    intro last out
    simp only [inOrder, ContiguousIntervalNode.toList, ihl, ihr, lastAfter_append,
      emitFrom_append, lastAfter]
    congr 1
    cases hlast : lastAfter last l.toList with
    | none => simp [emitFrom]
    | some la =>
      simp only [emitFrom]
      split_ifs <;> simp

theorem referenceTraversal_cons (cmp : K → K → Int) (zero : V) (x : Interval K × V)
    (xs : List (Interval K × V)) :
    referenceTraversal cmp zero (x :: xs) = x :: emitFrom cmp zero (some x.1) xs := by
  induction xs generalizing x with
  | nil => simp [referenceTraversal, emitFrom]
  | cons y ys ih =>
    simp only [referenceTraversal, emitFrom, ih]
    split_ifs <;> rfl

theorem emitFrom_none (cmp : K → K → Int) (zero : V) (xs : List (Interval K × V)) :
    emitFrom cmp zero none xs = referenceTraversal cmp zero xs := by
  cases xs with
  | nil => simp [emitFrom, referenceTraversal]
  | cons x xs => rw [referenceTraversal_cons]; simp [emitFrom]

theorem traverseInOrder_eq (t : ContiguousIntervalTree K V) (zero : V) :
    t.TraverseInOrder zero = referenceTraversal t.Comparator zero t.Root.toList := by
  simp [ContiguousIntervalTree.TraverseInOrder, inOrder_eq, emitFrom_none]

theorem referenceTraversal_head (cmp : K → K → Int) (zero : V) (xs : List (Interval K × V)) :
    (referenceTraversal cmp zero xs).head? = xs.head? := by
  cases xs with
  | nil => simp [referenceTraversal]
  | cons x xs => rw [referenceTraversal_cons]; simp

theorem referenceTraversal_getLast (cmp : K → K → Int) (zero : V)
    (xs : List (Interval K × V)) :
    (referenceTraversal cmp zero xs).getLast? = xs.getLast? := by
  match xs with
  | [] => simp [referenceTraversal]
  | [x] => simp [referenceTraversal]
  | x :: y :: rest =>
    have ih := referenceTraversal_getLast cmp zero (y :: rest)
    have hne : referenceTraversal cmp zero (y :: rest) ≠ [] := by
      rw [referenceTraversal_cons]; simp
    obtain ⟨z, zs, hz⟩ := List.exists_cons_of_ne_nil hne
    simp only [referenceTraversal]
    split_ifs
    · rw [hz, List.getLast?_cons_cons, List.getLast?_cons_cons, ← hz, ih,
        List.getLast?_cons_cons]
    · rw [hz, List.getLast?_cons_cons, ← hz, ih, List.getLast?_cons_cons]

theorem mem_intervals_of_mem_toList {t : ContiguousIntervalNode K V} {x : Interval K × V}
    (h : x ∈ t.toList) : x.1 ∈ t.intervals :=
  List.mem_map_of_mem _ h

theorem ordered_sorted [LinearOrder K] :
    ∀ t : ContiguousIntervalNode K V, Ordered t →
      t.intervals.Pairwise (fun x y => x.End ≤ y.Start) ∧
        ∀ x ∈ t.intervals, x.Start ≤ x.End := by
  intro t
  induction t with
  | nil =>
    intro _
    simp [ContiguousIntervalNode.intervals, ContiguousIntervalNode.toList]
  | node ci cv l r ihl ihr =>
    intro ho
    obtain ⟨hci, hl, hr, hol, hor⟩ := ho
    obtain ⟨hpl, hsl⟩ := ihl hol
    obtain ⟨hpr, hsr⟩ := ihr hor
    constructor
    · have hsplit : (ContiguousIntervalNode.node ci cv l r).intervals
          = l.intervals ++ ci :: r.intervals := by
        simp [ContiguousIntervalNode.intervals, ContiguousIntervalNode.toList]
      rw [hsplit, List.pairwise_append]
      refine ⟨hpl, List.pairwise_cons.2 ⟨hr, hpr⟩, ?_⟩
      intro a ha b hb
      rcases List.mem_cons.1 hb with hb | hb
      · subst hb; exact hl a ha
      · exact (hl a ha).trans (hci.trans (hr b hb))
    · intro x hx
      rcases (mem_intervals_node x ci cv l r).1 hx with h | h | h
      · exact hsl x h
      · subst h; exact hci
      · exact hsr x h

/-- A relation that holds between touching neighbours, and on both sides of a synthesised gap,
holds between all consecutive pairs of the reference traversal of a sorted list. -/
theorem referenceTraversal_chain [LinearOrder K] (cmp : K → K → Int) (zero : V)
    (R : Interval K → Interval K → Prop)
    (htouch : ∀ x y : Interval K, x.Start ≤ x.End → x.End ≤ y.Start →
      ¬ cmp x.End y.Start < 0 → R x y)
    (hgap : ∀ x y : Interval K, x.Start ≤ x.End → cmp x.End y.Start < 0 →
      R x (SimpleInterval x.End y.Start) ∧ R (SimpleInterval x.End y.Start) y) :
    ∀ xs : List (Interval K × V), xs.Pairwise (fun x y => x.1.End ≤ y.1.Start) →
      (∀ x ∈ xs, x.1.Start ≤ x.1.End) →
      List.Chain' (fun x y => R x.1 y.1) (referenceTraversal cmp zero xs) := by
  intro xs
  induction xs with
  | nil => intro _ _; simp [referenceTraversal]
  | cons x xs ih =>
    intro hp hs
    cases xs with
    | nil => simp [referenceTraversal]
    | cons y rest =>
      have hp2 := List.pairwise_cons.1 hp
      have ih2 := ih hp2.2 (fun z hz => hs z (List.mem_cons_of_mem _ hz))
      have hhead : (referenceTraversal cmp zero (y :: rest)).head? = some y := by
        rw [referenceTraversal_head]; rfl
      have hxs := hs x (List.mem_cons_self _ _)
      have hxy := hp2.1 y (List.mem_cons_self _ _)
      simp only [referenceTraversal]
      split_ifs with hlt
      · obtain ⟨g1, g2⟩ := hgap x.1 y.1 hxs hlt
        refine List.chain'_cons.2 ⟨g1, List.chain'_cons'.2 ⟨?_, ih2⟩⟩
        intro z hz
        rw [hhead] at hz
        cases hz
        exact g2
      · refine List.chain'_cons'.2 ⟨?_, ih2⟩
        intro z hz
        rw [hhead] at hz
        cases hz
        exact htouch x.1 y.1 hxs hxy hlt

theorem minStartOf_sorted [LinearOrder K] {cmp : K → K → Int} (hc : TotalOrderCmp cmp) :
    ∀ xs : List (Interval K), xs.Pairwise (fun x y => x.End ≤ y.Start) →
      (∀ x ∈ xs, x.Start ≤ x.End) → minStartOf cmp xs = xs.head?.map Interval.Start := by
  intro xs
  induction xs with
  | nil => intro _ _; rfl
  | cons x xs ih =>
    intro hp hs
    have hp2 := List.pairwise_cons.1 hp
    have ih2 := ih hp2.2 (fun z hz => hs z (List.mem_cons_of_mem _ hz))
    simp only [minStartOf, ih2]
    cases xs with
    | nil => rfl
    | cons y rest =>
      have hle : x.Start ≤ y.Start :=
        (hs x (List.mem_cons_self _ _)).trans (hp2.1 y (List.mem_cons_self _ _))
      simp [(hc.le_iff _ _).2 hle]

theorem maxEndOf_sorted [LinearOrder K] {cmp : K → K → Int} (hc : TotalOrderCmp cmp) :
    ∀ xs : List (Interval K), xs.Pairwise (fun x y => x.End ≤ y.Start) →
      (∀ x ∈ xs, x.Start ≤ x.End) → maxEndOf cmp xs = xs.getLast?.map Interval.End := by
  intro xs
  induction xs with
  | nil => intro _ _; rfl
  | cons x xs ih =>
    intro hp hs
    have hp2 := List.pairwise_cons.1 hp
    have ih2 := ih hp2.2 (fun z hz => hs z (List.mem_cons_of_mem _ hz))
    simp only [maxEndOf, ih2]
    cases xs with
    | nil => rfl
    | cons y rest =>
      obtain ⟨z, hz⟩ : ∃ z, (y :: rest).getLast? = some z :=
        ⟨(y :: rest).getLast (by simp), List.getLast?_eq_getLast _ _⟩
      have hzmem : z ∈ y :: rest := List.mem_of_getLast?_eq_some hz
      have hle : x.End ≤ z.End :=
        (hp2.1 z hzmem).trans (hs z (List.mem_cons_of_mem _ hzmem))
      have hnot : ¬ cmp z.End x.End < 0 := fun h => absurd ((hc.neg_iff _ _).1 h) (not_lt.2 hle)
      rw [List.getLast?_cons_cons, hz]
      simp [hnot]

theorem length_referenceTraversal (cmp : K → K → Int) (zero : V) :
    ∀ xs : List (Interval K × V),
      (referenceTraversal cmp zero xs).length = xs.length + gapCount cmp (xs.map Prod.fst) := by
  intro xs
  induction xs with
  | nil => rfl
  | cons x xs ih =>
    cases xs with
    | nil => rfl
    | cons y rest =>
      simp only [referenceTraversal, List.map_cons, gapCount]
      simp only [List.map_cons] at ih
      split_ifs with hlt
      · simp only [List.length_cons, ih]; omega
      · simp only [List.length_cons, ih]; omega

theorem numIntervals_eq (t : ContiguousIntervalTree K V) (zero : V) :
    t.NumIntervals zero = t.Size + gapCount t.Comparator t.Root.intervals := by
  unfold ContiguousIntervalTree.NumIntervals
  rw [traverseInOrder_eq, length_referenceTraversal, size_eq_root_size, size_eq_length_toList]
  rfl

theorem gapCount_eq_zero_iff [LinearOrder K] {cmp : K → K → Int} (hc : TotalOrderCmp cmp) :
    ∀ xs : List (Interval K), xs.Pairwise (fun x y => x.End ≤ y.Start) →
      (gapCount cmp xs = 0 ↔ List.Chain' (fun x y => cmp x.End y.Start = 0) xs) := by
  intro xs
  induction xs with
  | nil => intro _; simp [gapCount]
  | cons x xs ih =>
    intro hp
    cases xs with
    | nil => simp [gapCount]
    | cons y rest =>
      have hp2 := List.pairwise_cons.1 hp
      have hxy : x.End ≤ y.Start := hp2.1 y (List.mem_cons_self _ _)
      have hiff : ¬ cmp x.End y.Start < 0 ↔ cmp x.End y.Start = 0 := by
        rw [hc.neg_iff, hc.zero_iff]
        exact ⟨fun h => le_antisymm hxy (not_lt.1 h), fun h => by rw [h]; exact lt_irrefl _⟩
      rw [List.chain'_cons, ← ih hp2.2, ← hiff]
      simp only [gapCount]
      split_ifs with hlt
      · simp [hlt]
      · simp [hlt]

end TraverseLemmas

/-! ## Lemmas on `search` and `Find` -/

section SearchLemmas

variable {K V : Type}

theorem forall_mem_intervals_node (P : Interval K → Prop) (ci : Interval K) (cv : V)
    (l r : ContiguousIntervalNode K V) :
    (∀ x ∈ (ContiguousIntervalNode.node ci cv l r).intervals, P x) ↔
      (∀ x ∈ l.intervals, P x) ∧ P ci ∧ ∀ x ∈ r.intervals, P x := by
  simp only [mem_intervals_node]
  constructor
  · intro h
    exact ⟨fun x hx => h x (Or.inl hx), h ci (Or.inr (Or.inl rfl)),
      fun x hx => h x (Or.inr (Or.inr hx))⟩
  · rintro ⟨h1, h2, h3⟩ x (hx | hx | hx)
    · exact h1 x hx
    · subst hx; exact h2
    · exact h3 x hx

theorem minStartOf_eq_none {cmp : K → K → Int} :
    ∀ xs : List (Interval K), minStartOf cmp xs = none → xs = [] := by
  intro xs h
  cases xs with
  | nil => rfl
  | cons x xs =>
    simp only [minStartOf] at h
    cases hm : minStartOf cmp xs with
    | none => rw [hm] at h; cases h
    | some m => rw [hm] at h; simp only at h; split_ifs at h

theorem maxEndOf_eq_none {cmp : K → K → Int} :
    ∀ xs : List (Interval K), maxEndOf cmp xs = none → xs = [] := by
  intro xs h
  cases xs with
  | nil => rfl
  | cons x xs =>
    simp only [maxEndOf] at h
    cases hm : maxEndOf cmp xs with
    | none => rw [hm] at h; cases h
    | some m => rw [hm] at h; simp only at h; split_ifs at h

theorem lt_minStartOf_iff [LinearOrder K] {cmp : K → K → Int} (hc : TotalOrderCmp cmp)
    (p : K) : ∀ (xs : List (Interval K)) (lo : K), minStartOf cmp xs = some lo →
      ((∀ x ∈ xs, p < x.Start) ↔ p < lo) := by
  intro xs
  induction xs with
  | nil => intro lo h; cases h
  | cons x xs ih =>
    intro lo h
    simp only [minStartOf] at h
    cases hm : minStartOf cmp xs with
    | none =>
      rw [hm] at h
      simp only [Option.some.injEq] at h
      rw [minStartOf_eq_none xs hm, ← h]
      simp
    | some m =>
      rw [hm] at h
      simp only at h
      rw [List.forall_mem_cons, ih m hm]
      split_ifs at h with hle
      · simp only [Option.some.injEq] at h
        rw [← h]
        exact ⟨fun hh => hh.1, fun hh => ⟨hh, lt_of_lt_of_le hh ((hc.le_iff _ _).1 hle)⟩⟩
      · simp only [Option.some.injEq] at h
        rw [← h]
        have hlt : m < x.Start := not_le.1 (fun hh => hle ((hc.le_iff _ _).2 hh))
        exact ⟨fun hh => hh.2, fun hh => ⟨lt_trans hh hlt, hh⟩⟩

theorem maxEndOf_lt_iff [LinearOrder K] {cmp : K → K → Int} (hc : TotalOrderCmp cmp)
    (p : K) : ∀ (xs : List (Interval K)) (hi : K), maxEndOf cmp xs = some hi →
      ((∀ x ∈ xs, x.End < p) ↔ hi < p) := by
  intro xs
  induction xs with
  | nil => intro hi h; cases h
  | cons x xs ih =>
    intro hi h
    simp only [maxEndOf] at h
    cases hm : maxEndOf cmp xs with
    | none =>
      rw [hm] at h
      simp only [Option.some.injEq] at h
      rw [maxEndOf_eq_none xs hm, ← h]
      simp
    | some m =>
      rw [hm] at h
      simp only at h
      rw [List.forall_mem_cons, ih m hm]
      split_ifs at h with hlt
      · simp only [Option.some.injEq] at h
        rw [← h]
        exact ⟨fun hh => hh.1, fun hh => ⟨hh, lt_trans ((hc.neg_iff _ _).1 hlt) hh⟩⟩
      · simp only [Option.some.injEq] at h
        rw [← h]
        have hle : x.End ≤ m := not_lt.1 (fun hh => hlt ((hc.neg_iff _ _).2 hh))
        exact ⟨fun hh => hh.2, fun hh => ⟨lt_of_le_of_lt hle hh, hh⟩⟩

/-- The walk of `search` returns nil exactly when it went only left and the point is before
every stored start, or went only right and the point is after every stored end. -/
theorem searchLoop_absent_iff [LinearOrder K] {cmp : K → K → Int} (hc : TotalOrderCmp cmp)
    (p : K) : ∀ t : ContiguousIntervalNode K V, Ordered t → t ≠ .nil →
      ∀ s h : Int, -h ≤ s → s ≤ h →
        (searchLoop cmp p t s h = .absent ↔
          (-s = h ∧ ∀ x ∈ t.intervals, p < x.Start) ∨
            (s = h ∧ ∀ x ∈ t.intervals, x.End < p)) := by
  intro t
  induction t with
  | nil => intro _ hne; exact absurd rfl hne
  | node ci cv l r ihl ihr =>
    intro ho _ s h hs1 hs2
    obtain ⟨hci, hl, hr, hol, hor⟩ := ho
    rw [forall_mem_intervals_node, forall_mem_intervals_node]
    by_cases c1 : cmp p ci.Start < 0
    · have hp : p < ci.Start := (hc.neg_iff _ _).1 c1
      have hB : ¬ ci.End < p := not_lt.2 (hp.le.trans hci)
      have hr2 : ∀ x ∈ r.intervals, p < x.Start :=
        fun x hx => lt_of_lt_of_le hp (hci.trans (hr x hx))
      cases l with
      | nil =>
        have hstep : searchLoop cmp p (.node ci cv .nil r) s h
            = if -s = h then .absent else .sentinel := by
          rw [searchLoop.eq_def]; simp only [if_pos c1]
        rw [hstep]
        constructor
        · intro hres
          split_ifs at hres with he
          exact Or.inl ⟨he, by simp [ContiguousIntervalNode.intervals,
            ContiguousIntervalNode.toList], hp, hr2⟩
        · rintro (⟨he, _⟩ | ⟨_, _, hb, _⟩)
          · rw [if_pos he]
          · exact absurd hb hB
      | node li lv ll lr =>
        have hstep : searchLoop cmp p (.node ci cv (.node li lv ll lr) r) s h
            = searchLoop cmp p (.node li lv ll lr) (s - 1) (h + 1) := by
          rw [searchLoop.eq_def]; simp only [if_pos c1]
        rw [hstep, ihl hol (by simp) (s - 1) (h + 1) (by omega) (by omega)]
        constructor
        · rintro (⟨he, ha⟩ | ⟨he, _⟩)
          · exact Or.inl ⟨by omega, ha, hp, hr2⟩
          · omega
        · rintro (⟨he, ha, _, _⟩ | ⟨_, _, hb, _⟩)
          · exact Or.inl ⟨by omega, ha⟩
          · exact absurd hb hB
    · by_cases c2 : cmp p ci.End > 0
      · have hp : ci.End < p := (hc.pos_iff _ _).1 c2
        have hA : ¬ p < ci.Start := not_lt.2 (hci.trans hp.le)
        have hl2 : ∀ x ∈ l.intervals, x.End < p :=
          fun x hx => lt_of_le_of_lt ((hl x hx).trans hci) hp
        cases r with
        | nil =>
          have hstep : searchLoop cmp p (.node ci cv l .nil) s h
              = if s = h then .absent else .sentinel := by
            rw [searchLoop.eq_def]; simp only [if_neg c1, if_pos c2]
          rw [hstep]
          constructor
          · intro hres
            split_ifs at hres with he
            exact Or.inr ⟨he, hl2, hp, by simp [ContiguousIntervalNode.intervals,
              ContiguousIntervalNode.toList]⟩
          · rintro (⟨_, _, ha, _⟩ | ⟨he, _⟩)
            · exact absurd ha hA
            · rw [if_pos he]
        | node ri rv rl rr =>
          have hstep : searchLoop cmp p (.node ci cv l (.node ri rv rl rr)) s h
              = searchLoop cmp p (.node ri rv rl rr) (s + 1) (h + 1) := by
            rw [searchLoop.eq_def]; simp only [if_neg c1, if_pos c2]
          rw [hstep, ihr hor (by simp) (s + 1) (h + 1) (by omega) (by omega)]
          constructor
          · rintro (⟨he, _⟩ | ⟨he, hb⟩)
            · omega
            · exact Or.inr ⟨by omega, hl2, hp, hb⟩
          · rintro (⟨_, _, ha, _⟩ | ⟨he, _, _, hb⟩)
            · exact absurd ha hA
            · exact Or.inr ⟨by omega, hb⟩
      · have hstep : searchLoop cmp p (.node ci cv l r) s h = .found (.node ci cv l r) := by
          rw [searchLoop.eq_def]; simp only [if_neg c1, if_neg c2]
        rw [hstep]
        constructor
        · intro hres; cases hres
        · rintro (⟨_, _, ha, _⟩ | ⟨_, _, hb, _⟩)
          · exact absurd ((hc.neg_iff _ _).2 ha) c1
          · exact absurd ((hc.pos_iff _ _).2 hb) c2

theorem find_eq_false_iff (t : ContiguousIntervalTree K V) (p : K) :
    t.Find p = false ↔ searchLoop t.Comparator p t.Root 0 0 = .absent := by
  unfold ContiguousIntervalTree.Find ContiguousIntervalTree.search
  cases searchLoop t.Comparator p t.Root 0 0 <;> simp

/-- On a non-empty ordered tree, `Find` is false exactly below every start or above every end. -/
theorem find_false_iff_outside [LinearOrder K] (t : ContiguousIntervalTree K V)
    (hc : TotalOrderCmp t.Comparator) (ho : Ordered t.Root) (hne : t.Root ≠ .nil) (p : K) :
    t.Find p = false ↔
      (∀ x ∈ t.Root.intervals, p < x.Start) ∨ (∀ x ∈ t.Root.intervals, x.End < p) := by
  rw [find_eq_false_iff, searchLoop_absent_iff hc p t.Root ho hne 0 0 (by omega) (by omega)]
  simp

theorem find_nil (t : ContiguousIntervalTree K V) (h : t.Root = .nil) (p : K) :
    t.Find p = false := by
  rw [find_eq_false_iff, h]
  rfl

theorem intervals_ne_nil {t : ContiguousIntervalNode K V} (h : t ≠ .nil) :
    t.intervals ≠ [] := by
  cases t with
  | nil => exact absurd rfl h
  | node ci cv l r => simp [ContiguousIntervalNode.intervals, ContiguousIntervalNode.toList]

/-- `Find` on an ordered tree: true exactly between the smallest start and the largest end. -/
theorem find_true_iff [LinearOrder K] (t : ContiguousIntervalTree K V)
    (hc : TotalOrderCmp t.Comparator) (ho : Ordered t.Root) (p : K) :
    t.Find p = true ↔
      ∃ lo hi, minStartOf t.Comparator t.Root.intervals = some lo ∧
        maxEndOf t.Comparator t.Root.intervals = some hi ∧ lo ≤ p ∧ p ≤ hi := by
  by_cases hne : t.Root = .nil
  · rw [find_nil t hne p, hne]
    simp [ContiguousIntervalNode.intervals, ContiguousIntervalNode.toList, minStartOf]
  · have hint := intervals_ne_nil hne
    obtain ⟨lo, hlo⟩ : ∃ lo, minStartOf t.Comparator t.Root.intervals = some lo := by
      cases hm : minStartOf t.Comparator t.Root.intervals with
      | none => exact absurd (minStartOf_eq_none _ hm) hint
      | some lo => exact ⟨lo, rfl⟩
    obtain ⟨hi, hhi⟩ : ∃ hi, maxEndOf t.Comparator t.Root.intervals = some hi := by
      cases hm : maxEndOf t.Comparator t.Root.intervals with
      | none => exact absurd (maxEndOf_eq_none _ hm) hint
      | some hi => exact ⟨hi, rfl⟩
    have hfalse := find_false_iff_outside t hc ho hne p
    rw [lt_minStartOf_iff hc p _ lo hlo, maxEndOf_lt_iff hc p _ hi hhi] at hfalse
    rw [hlo, hhi]
    constructor
    · intro htrue
      refine ⟨lo, hi, rfl, rfl, ?_, ?_⟩
      · exact not_lt.1 (fun hh => by rw [hfalse.2 (Or.inl hh)] at htrue; cases htrue)
      · exact not_lt.1 (fun hh => by rw [hfalse.2 (Or.inr hh)] at htrue; cases htrue)
    · rintro ⟨lo2, hi2, h1, h2, h3, h4⟩
      cases h1
      cases h2
      cases hres : t.Find p with
      | true => rfl
      | false =>
        rcases hfalse.1 hres with hh | hh
        · exact absurd hh (not_lt.2 h3)
        · exact absurd hh (not_lt.2 h4)

end SearchLemmas

/-! ## Lemmas on the invariants -/

section InvariantLemmas

variable {K V : Type}

theorem insertLoop_orderingI1 (cmp : K → K → Int) (i : Interval K) (v : V) :
    ∀ t : ContiguousIntervalNode K V, OrderingI1 cmp t →
      OrderingI1 cmp (insertLoop cmp i v t).2 := by
  intro t
  induction t with
  | nil =>
    intro _
    simp [insertLoop, OrderingI1, ContiguousIntervalNode.intervals,
      ContiguousIntervalNode.toList]
  | node ci cv l r ihl ihr =>
    intro ho
    obtain ⟨hl, hr, hol, hor⟩ := ho
    by_cases h1 : cmp i.Start ci.Start ≤ 0
    · by_cases h2 : cmp i.End ci.Start > 0
      · rw [insertLoop_node_false cmp i v ci cv l r (Or.inl ⟨h1, h2⟩)]
        exact ⟨hl, hr, hol, hor⟩
      · rw [insertLoop_node_left cmp i v ci cv l r h1 h2]
        refine ⟨?_, hr, ihl hol, hor⟩
        intro x hx
        rcases mem_intervals_insertLoop cmp i v l x hx with h | h
        · subst h
          exact ⟨h1, by omega⟩
        · exact hl x h
    · by_cases h3 : cmp i.Start ci.End ≥ 0
      · rw [insertLoop_node_right cmp i v ci cv l r h1 h3]
        refine ⟨hl, ?_, hol, ihr hor⟩
        intro x hx
        rcases mem_intervals_insertLoop cmp i v r x hx with h | h
        · subst h
          exact h3
        · exact hr x h
      · rw [insertLoop_node_false cmp i v ci cv l r (Or.inr ⟨h1, h3⟩)]
        exact ⟨hl, hr, hol, hor⟩

theorem insertAll_orderingI1 (t : ContiguousIntervalTree K V) (ops : List (Interval K × V))
    (ht : OrderingI1 t.Comparator t.Root) :
    OrderingI1 t.Comparator (insertAll t ops).Root := by
  induction ops generalizing t with
  | nil => exact ht
  | cons p ps ih =>
    simp only [insertAll]
    exact ih (t.Insert p.1 p.2).2 (insertLoop_orderingI1 t.Comparator p.1 p.2 t.Root ht)

/-- The exact rejection condition of the walk of `Insert` on an ordered tree. -/
theorem insertLoop_false_iff [LinearOrder K] {cmp : K → K → Int} (hc : TotalOrderCmp cmp)
    (i : Interval K) (v : V) :
    ∀ t : ContiguousIntervalNode K V, Ordered t →
      ((insertLoop cmp i v t).1 = false ↔
        ∃ x ∈ t.intervals, (i.Start ≤ x.Start ∧ x.Start < i.End) ∨
          (x.Start < i.Start ∧ i.Start < x.End)) := by
  intro t
  induction t with
  | nil =>
    intro _
    simp [insertLoop, ContiguousIntervalNode.intervals, ContiguousIntervalNode.toList]
  | node ci cv l r ihl ihr =>
    intro ho
    have hsl := (ordered_sorted l ho.2.2.2.1).2
    obtain ⟨hci, hl, hr, hol, hor⟩ := ho
    by_cases h1 : cmp i.Start ci.Start ≤ 0
    · have hs : i.Start ≤ ci.Start := (hc.le_iff _ _).1 h1
      by_cases h2 : cmp i.End ci.Start > 0
      · rw [insertLoop_node_false cmp i v ci cv l r (Or.inl ⟨h1, h2⟩)]
        refine ⟨fun _ => ⟨ci, ?_, Or.inl ⟨hs, (hc.pos_iff _ _).1 h2⟩⟩, fun _ => rfl⟩
        exact (mem_intervals_node ci ci cv l r).2 (Or.inr (Or.inl rfl))
      · have he : i.End ≤ ci.Start := not_lt.1 (fun h => h2 ((hc.pos_iff _ _).2 h))
        rw [insertLoop_node_left cmp i v ci cv l r h1 h2]
        show (insertLoop cmp i v l).1 = false ↔ _
        rw [ihl hol]
        constructor
        · rintro ⟨x, hx, hcond⟩
          exact ⟨x, (mem_intervals_node x ci cv l r).2 (Or.inl hx), hcond⟩
        · rintro ⟨x, hx, hcond⟩
          rcases (mem_intervals_node x ci cv l r).1 hx with hm | hm | hm
          · exact ⟨x, hm, hcond⟩
          · subst hm
            rcases hcond with ⟨_, h⟩ | ⟨h, _⟩
            · exact absurd h (not_lt.2 he)
            · exact absurd h (not_lt.2 hs)
          · have hxs : ci.Start ≤ x.Start := hci.trans (hr x hm)
            rcases hcond with ⟨_, h⟩ | ⟨h, _⟩
            · exact absurd h (not_lt.2 (he.trans hxs))
            · exact absurd h (not_lt.2 (hs.trans hxs))
    · have hs : ci.Start < i.Start := not_le.1 (fun h => h1 ((hc.le_iff _ _).2 h))
      by_cases h3 : cmp i.Start ci.End ≥ 0
      · have he : ci.End ≤ i.Start := (hc.nonneg_iff _ _).1 h3
        rw [insertLoop_node_right cmp i v ci cv l r h1 h3]
        show (insertLoop cmp i v r).1 = false ↔ _
        rw [ihr hor]
        constructor
        · rintro ⟨x, hx, hcond⟩
          exact ⟨x, (mem_intervals_node x ci cv l r).2 (Or.inr (Or.inr hx)), hcond⟩
        · rintro ⟨x, hx, hcond⟩
          rcases (mem_intervals_node x ci cv l r).1 hx with hm | hm | hm
          · have hxe : x.End < i.Start := lt_of_le_of_lt (hl x hm) hs
            rcases hcond with ⟨h, _⟩ | ⟨_, h⟩
            · exact absurd (lt_of_le_of_lt (hsl x hm) hxe) (not_lt.2 h)
            · exact absurd h (not_lt.2 hxe.le)
          · subst hm
            rcases hcond with ⟨h, _⟩ | ⟨_, h⟩
            · exact absurd hs (not_lt.2 h)
            · exact absurd h (not_lt.2 he)
          · exact ⟨x, hm, hcond⟩
      · have he : i.Start < ci.End := not_le.1 (fun h => h3 ((hc.nonneg_iff _ _).2 h))
        rw [insertLoop_node_false cmp i v ci cv l r (Or.inr ⟨h1, h3⟩)]
        refine ⟨fun _ => ⟨ci, ?_, Or.inr ⟨hs, he⟩⟩, fun _ => rfl⟩
        exact (mem_intervals_node ci ci cv l r).2 (Or.inr (Or.inl rfl))

theorem minStartOf_mem {cmp : K → K → Int} :
    ∀ (xs : List (Interval K)) (lo : K), minStartOf cmp xs = some lo →
      ∃ x ∈ xs, x.Start = lo := by
  intro xs
  induction xs with
  | nil => intro lo h; cases h
  | cons x xs ih =>
    intro lo h
    simp only [minStartOf] at h
    cases hm : minStartOf cmp xs with
    | none =>
      rw [hm] at h
      simp only [Option.some.injEq] at h
      exact ⟨x, List.mem_cons_self _ _, h⟩
    | some m =>
      rw [hm] at h
      simp only at h
      split_ifs at h
      · simp only [Option.some.injEq] at h
        exact ⟨x, List.mem_cons_self _ _, h⟩
      · simp only [Option.some.injEq] at h
        obtain ⟨y, hy, hye⟩ := ih m hm
        exact ⟨y, List.mem_cons_of_mem _ hy, hye.trans h⟩

theorem maxEndOf_mem {cmp : K → K → Int} :
    ∀ (xs : List (Interval K)) (hi : K), maxEndOf cmp xs = some hi →
      ∃ x ∈ xs, x.End = hi := by
  intro xs
  induction xs with
  | nil => intro hi h; cases h
  | cons x xs ih =>
    intro hi h
    simp only [maxEndOf] at h
    cases hm : maxEndOf cmp xs with
    | none =>
      rw [hm] at h
      simp only [Option.some.injEq] at h
      exact ⟨x, List.mem_cons_self _ _, h⟩
    | some m =>
      rw [hm] at h
      simp only at h
      split_ifs at h
      · simp only [Option.some.injEq] at h
        exact ⟨x, List.mem_cons_self _ _, h⟩
      · simp only [Option.some.injEq] at h
        obtain ⟨y, hy, hye⟩ := ih m hm
        exact ⟨y, List.mem_cons_of_mem _ hy, hye.trans h⟩

theorem self_mem_nodes (ci : Interval K) (cv : V) (l r : ContiguousIntervalNode K V) :
    ContiguousIntervalNode.node ci cv l r ∈ (ContiguousIntervalNode.node ci cv l r).nodes := by
  simp [ContiguousIntervalNode.nodes]

/-- A node returned by the walk of `search` is a node of the tree and contains the point. -/
theorem searchLoop_found (cmp : K → K → Int) (p : K) :
    ∀ (t : ContiguousIntervalNode K V) (s h : Int) (n : ContiguousIntervalNode K V),
      searchLoop cmp p t s h = .found n →
        n ∈ t.nodes ∧ ∃ ci cv l r, n = .node ci cv l r ∧
          ¬ cmp p ci.Start < 0 ∧ ¬ cmp p ci.End > 0 := by
  intro t
  induction t with
  | nil => intro s h n hres; simp [searchLoop] at hres
  | node ci cv l r ihl ihr =>
    intro s h n hres
    by_cases c1 : cmp p ci.Start < 0
    · cases l with
      | nil =>
        rw [searchLoop.eq_def] at hres
        simp only [if_pos c1] at hres
        split_ifs at hres
      | node li lv ll lr =>
        rw [searchLoop.eq_def] at hres
        simp only [if_pos c1] at hres
        obtain ⟨hmem, hrest⟩ := ihl _ _ n hres
        refine ⟨?_, hrest⟩
        simp only [ContiguousIntervalNode.nodes, List.mem_append, List.mem_cons] at hmem ⊢
        exact Or.inl hmem
    · by_cases c2 : cmp p ci.End > 0
      · cases r with
        | nil =>
          rw [searchLoop.eq_def] at hres
          simp only [if_neg c1, if_pos c2] at hres
          split_ifs at hres
        | node ri rv rl rr =>
          rw [searchLoop.eq_def] at hres
          simp only [if_neg c1, if_pos c2] at hres
          obtain ⟨hmem, hrest⟩ := ihr _ _ n hres
          refine ⟨?_, hrest⟩
          simp only [ContiguousIntervalNode.nodes, List.mem_append, List.mem_cons] at hmem ⊢
          exact Or.inr (Or.inr hmem)
      · rw [searchLoop.eq_def] at hres
        simp only [if_neg c1, if_neg c2, SearchResult.found.injEq] at hres
        subst hres
        exact ⟨self_mem_nodes ci cv l r, ci, cv, l, r, rfl, c1, c2⟩

/-- On an ordered tree the walk of `search` returns a node exactly when some stored interval
contains the point, bounds included. -/
theorem searchLoop_found_iff [LinearOrder K] {cmp : K → K → Int} (hc : TotalOrderCmp cmp)
    (p : K) : ∀ t : ContiguousIntervalNode K V, Ordered t → ∀ s h : Int,
      ((∃ n, searchLoop cmp p t s h = .found n) ↔
        ∃ x ∈ t.intervals, x.Start ≤ p ∧ p ≤ x.End) := by
  intro t
  induction t with
  | nil =>
    intro _ s h
    simp [searchLoop, ContiguousIntervalNode.intervals, ContiguousIntervalNode.toList]
  | node ci cv l r ihl ihr =>
    intro ho s h
    obtain ⟨hci, hl, hr, hol, hor⟩ := ho
    by_cases c1 : cmp p ci.Start < 0
    · have hp : p < ci.Start := (hc.neg_iff _ _).1 c1
      have hrhs : (∃ x ∈ (ContiguousIntervalNode.node ci cv l r).intervals,
          x.Start ≤ p ∧ p ≤ x.End) ↔ ∃ x ∈ l.intervals, x.Start ≤ p ∧ p ≤ x.End := by
        constructor
        · rintro ⟨x, hx, h1, h2⟩
          rcases (mem_intervals_node x ci cv l r).1 hx with hm | hm | hm
          · exact ⟨x, hm, h1, h2⟩
          · subst hm; exact absurd hp (not_lt.2 h1)
          · exact absurd hp (not_lt.2 ((hci.trans (hr x hm)).trans h1))
        · rintro ⟨x, hx, hcond⟩
          exact ⟨x, (mem_intervals_node x ci cv l r).2 (Or.inl hx), hcond⟩
      rw [hrhs]
      cases l with
      | nil =>
        have hstep : searchLoop cmp p (.node ci cv .nil r) s h
            = if -s = h then .absent else .sentinel := by
          rw [searchLoop.eq_def]; simp only [if_pos c1]
        rw [hstep]
        constructor
        · rintro ⟨n, hn⟩
          split_ifs at hn
        · rintro ⟨x, hx, _⟩
          simp [ContiguousIntervalNode.intervals, ContiguousIntervalNode.toList] at hx
      | node li lv ll lr =>
        have hstep : searchLoop cmp p (.node ci cv (.node li lv ll lr) r) s h
            = searchLoop cmp p (.node li lv ll lr) (s - 1) (h + 1) := by
          rw [searchLoop.eq_def]; simp only [if_pos c1]
        rw [hstep]
        exact ihl hol _ _
    · by_cases c2 : cmp p ci.End > 0
      · have hp : ci.End < p := (hc.pos_iff _ _).1 c2
        have hrhs : (∃ x ∈ (ContiguousIntervalNode.node ci cv l r).intervals,
            x.Start ≤ p ∧ p ≤ x.End) ↔ ∃ x ∈ r.intervals, x.Start ≤ p ∧ p ≤ x.End := by
          constructor
          · rintro ⟨x, hx, h1, h2⟩
            rcases (mem_intervals_node x ci cv l r).1 hx with hm | hm | hm
            · exact absurd hp (not_lt.2 (h2.trans ((hl x hm).trans hci)))
            · subst hm; exact absurd hp (not_lt.2 h2)
            · exact ⟨x, hm, h1, h2⟩
          · rintro ⟨x, hx, hcond⟩
            exact ⟨x, (mem_intervals_node x ci cv l r).2 (Or.inr (Or.inr hx)), hcond⟩
        rw [hrhs]
        cases r with
        | nil =>
          have hstep : searchLoop cmp p (.node ci cv l .nil) s h
              = if s = h then .absent else .sentinel := by
            rw [searchLoop.eq_def]; simp only [if_neg c1, if_pos c2]
          rw [hstep]
          constructor
          · rintro ⟨n, hn⟩
            split_ifs at hn
          · rintro ⟨x, hx, _⟩
            simp [ContiguousIntervalNode.intervals, ContiguousIntervalNode.toList] at hx
        | node ri rv rl rr =>
          have hstep : searchLoop cmp p (.node ci cv l (.node ri rv rl rr)) s h
              = searchLoop cmp p (.node ri rv rl rr) (s + 1) (h + 1) := by
            rw [searchLoop.eq_def]; simp only [if_neg c1, if_pos c2]
          rw [hstep]
          exact ihr hor _ _
      · have hstep : searchLoop cmp p (.node ci cv l r) s h = .found (.node ci cv l r) := by
          rw [searchLoop.eq_def]; simp only [if_neg c1, if_neg c2]
        rw [hstep]
        refine ⟨fun _ => ⟨ci, ?_, ?_, ?_⟩, fun _ => ⟨_, rfl⟩⟩
        · exact (mem_intervals_node ci ci cv l r).2 (Or.inr (Or.inl rfl))
        · exact not_lt.1 (fun hh => c1 ((hc.neg_iff _ _).2 hh))
        · exact not_lt.1 (fun hh => c2 ((hc.pos_iff _ _).2 hh))

end InvariantLemmas

/-! ## Lemmas on filling a gap -/

section GapLemmas

variable {K V : Type}

theorem gapCount_append_cons (cmp : K → K → Int) (x : Interval K) (rest : List (Interval K)) :
    ∀ pre : List (Interval K),
      gapCount cmp (pre ++ x :: rest) = gapCount cmp (pre ++ [x]) + gapCount cmp (x :: rest) := by
  intro pre
  induction pre with
  | nil => simp [gapCount]
  | cons a pre ih =>
    cases pre with
    | nil =>
      show gapCount cmp (a :: x :: rest) = gapCount cmp [a, x] + gapCount cmp (x :: rest)
      simp only [gapCount]
      omega
    | cons b pre2 =>
      have ih2 : gapCount cmp (b :: (pre2 ++ x :: rest))
          = gapCount cmp (b :: (pre2 ++ [x])) + gapCount cmp (x :: rest) := ih
      show gapCount cmp (a :: b :: (pre2 ++ x :: rest))
        = gapCount cmp (a :: b :: (pre2 ++ [x])) + gapCount cmp (x :: rest)
      simp only [gapCount, ih2]
      omega

/-- Where a new interval lands in the in-order list when it fits between two neighbours. -/
theorem sorted_insert_between [LinearOrder K] (pre post l2 : List (Interval K))
    (x y g : Interval K)
    (hp : (pre ++ x :: y :: post).Pairwise (fun a b => a.End ≤ b.Start))
    (hs : ∀ a ∈ pre ++ x :: y :: post, a.Start ≤ a.End)
    (hp2 : l2.Pairwise (fun a b => a.End ≤ b.Start)) (hs2 : ∀ a ∈ l2, a.Start ≤ a.End)
    (hperm : l2.Perm (g :: (pre ++ x :: y :: post)))
    (hg : g.Start ≤ g.End) (hxg : x.End ≤ g.Start) (hgy : g.End ≤ y.Start) :
    l2 = pre ++ x :: g :: y :: post := by
  have hanti : IsAntisymm (Interval K)
      (fun a b => (a.Start ≤ a.End ∧ b.Start ≤ b.End) ∧ a.End ≤ b.Start) := by
    constructor
    intro a b hab hba
    obtain ⟨as, ae⟩ := a
    obtain ⟨bs, be⟩ := b
    simp only at hab hba
    have h1 : ae = bs := le_antisymm hab.2 (hab.1.2.trans (hba.2.trans hab.1.1))
    have h2 : as = bs := le_antisymm (hab.1.1.trans hab.2) (hab.1.2.trans hba.2)
    have h3 : be = bs := le_antisymm (hba.2.trans (hab.1.1.trans hab.2)) hab.1.2
    rw [h1, h2, h3]
  have hcand : (pre ++ x :: g :: y :: post).Perm (g :: (pre ++ x :: y :: post)) := by
    have h1 : pre ++ x :: g :: y :: post = (pre ++ [x]) ++ g :: (y :: post) := by simp
    have h2 : pre ++ x :: y :: post = (pre ++ [x]) ++ (y :: post) := by simp
    rw [h1, h2]
    exact List.perm_middle
  have hsC : ∀ a ∈ pre ++ x :: g :: y :: post, a.Start ≤ a.End := by
    intro a ha
    rcases List.mem_cons.1 ((hcand.mem_iff).1 ha) with h | h
    · rw [h]; exact hg
    · exact hs a h
  have hpC : (pre ++ x :: g :: y :: post).Pairwise (fun a b => a.End ≤ b.Start) := by
    have hsplit := List.pairwise_append.1 hp
    obtain ⟨hpre, hrest, hcross⟩ := hsplit
    have hrest2 := List.pairwise_cons.1 hrest
    have hyp := List.pairwise_cons.1 hrest2.2
    have hxs : x.Start ≤ x.End := hs x (by simp)
    have hys : y.Start ≤ y.End := hs y (by simp)
    rw [List.pairwise_append]
    refine ⟨hpre, ?_, ?_⟩
    · refine List.pairwise_cons.2 ⟨?_, List.pairwise_cons.2 ⟨?_, hrest2.2⟩⟩
      · intro b hb
        rcases List.mem_cons.1 hb with hb | hb
        · rw [hb]; exact hxg
        · exact hrest2.1 b hb
      · intro b hb
        rcases List.mem_cons.1 hb with hb | hb
        · rw [hb]; exact hgy
        · exact hgy.trans (hys.trans (hyp.1 b hb))
    · intro a ha b hb
      rcases List.mem_cons.1 hb with hb | hb
      · rw [hb]; exact hcross a ha x (List.mem_cons_self _ _)
      · rcases List.mem_cons.1 hb with hb2 | hb2
        · rw [hb2]
          exact (hcross a ha x (List.mem_cons_self _ _)).trans (hxs.trans hxg)
        · exact hcross a ha b (List.mem_cons_of_mem _ hb2)
  have hS1 : List.Sorted (fun a b => (a.Start ≤ a.End ∧ b.Start ≤ b.End) ∧ a.End ≤ b.Start)
      l2 :=
    hp2.imp_of_mem (fun {a b} ha hb hab => ⟨⟨hs2 a ha, hs2 b hb⟩, hab⟩)
  have hS2 : List.Sorted (fun a b => (a.Start ≤ a.End ∧ b.Start ≤ b.End) ∧ a.End ≤ b.Start)
      (pre ++ x :: g :: y :: post) :=
    hpC.imp_of_mem (fun {a b} ha hb hab => ⟨⟨hsC a ha, hsC b hb⟩, hab⟩)
  exact List.eq_of_perm_of_sorted (hperm.trans hcand.symm) hS1 hS2

theorem mem_referenceTraversal_gap (cmp : K → K → Int) (zero : V) (x y : Interval K × V)
    (post : List (Interval K × V)) (hlt : cmp x.1.End y.1.Start < 0) :
    ∀ pre : List (Interval K × V),
      (SimpleInterval x.1.End y.1.Start, zero)
        ∈ referenceTraversal cmp zero (pre ++ x :: y :: post) := by
  intro pre
  induction pre with
  | nil => simp [referenceTraversal, hlt]
  | cons a pre ih =>
    cases pre with
    | nil =>
      have ih2 : (SimpleInterval x.1.End y.1.Start, zero)
          ∈ referenceTraversal cmp zero (x :: y :: post) := ih
      show _ ∈ referenceTraversal cmp zero (a :: x :: y :: post)
      rw [referenceTraversal]
      split_ifs
      · exact List.mem_cons_of_mem _ (List.mem_cons_of_mem _ ih2)
      · exact List.mem_cons_of_mem _ ih2
    | cons b pre2 =>
      have ih2 : (SimpleInterval x.1.End y.1.Start, zero)
          ∈ referenceTraversal cmp zero (b :: (pre2 ++ x :: y :: post)) := ih
      show _ ∈ referenceTraversal cmp zero (a :: b :: (pre2 ++ x :: y :: post))
      rw [referenceTraversal]
      split_ifs
      · exact List.mem_cons_of_mem _ (List.mem_cons_of_mem _ ih2)
      · exact List.mem_cons_of_mem _ ih2

theorem intervals_of_toList_split {t : ContiguousIntervalNode K V}
    {pre post : List (Interval K × V)} {x y : Interval K × V}
    (hsplit : t.toList = pre ++ x :: y :: post) :
    t.intervals = pre.map Prod.fst ++ x.1 :: y.1 :: post.map Prod.fst := by
  simp [ContiguousIntervalNode.intervals, hsplit]

/-- The synthesised gap after a stored interval of positive length is accepted by `Insert`. -/
theorem fill_gap_accepted [LinearOrder K] (t : ContiguousIntervalTree K V)
    (hc : TotalOrderCmp t.Comparator) (ho : Ordered t.Root)
    (pre post : List (Interval K × V)) (x y : Interval K × V) (v : V)
    (hsplit : t.Root.toList = pre ++ x :: y :: post)
    (hgap : x.1.End < y.1.Start) (hpos : x.1.Start < x.1.End) :
    (t.Insert (SimpleInterval x.1.End y.1.Start) v).1 = true := by
  obtain ⟨hp, hs⟩ := ordered_sorted _ ho
  have hint := intervals_of_toList_split hsplit
  rw [hint] at hp hs
  obtain ⟨_, hrest, hcross⟩ := List.pairwise_append.1 hp
  have hrest2 := List.pairwise_cons.1 hrest
  have hyp := List.pairwise_cons.1 hrest2.2
  have hys : y.1.Start ≤ y.1.End := hs y.1 (by simp)
  cases hres : (t.Insert (SimpleInterval x.1.End y.1.Start) v).1 with
  | true => rfl
  | false =>
    exfalso
    obtain ⟨z, hz, hcond⟩ := (insertLoop_false_iff hc _ v t.Root ho).1 hres
    rw [hint] at hz
    simp only [SimpleInterval] at hcond
    rcases List.mem_append.1 hz with hz | hz
    · have hze : z.End ≤ x.1.Start := hcross z hz x.1 (List.mem_cons_self _ _)
      have hzs : z.Start ≤ z.End := hs z (List.mem_append_left _ hz)
      rcases hcond with ⟨h, _⟩ | ⟨_, h⟩
      · exact absurd (lt_of_le_of_lt (hzs.trans hze) hpos) (not_lt.2 h)
      · exact absurd h (not_lt.2 (hze.trans hpos.le))
    · rcases List.mem_cons.1 hz with hz | hz
      · rw [hz] at hcond
        rcases hcond with ⟨h, _⟩ | ⟨_, h⟩
        · exact absurd hpos (not_lt.2 h)
        · exact lt_irrefl _ h
      · rcases List.mem_cons.1 hz with hz | hz
        · rw [hz] at hcond
          rcases hcond with ⟨_, h⟩ | ⟨h, _⟩
          · exact lt_irrefl _ h
          · exact absurd hgap (not_lt.2 h.le)
        · have hzy : y.1.Start ≤ z.Start := hys.trans (hyp.1 z hz)
          rcases hcond with ⟨_, h⟩ | ⟨h, _⟩
          · exact absurd h (not_lt.2 hzy)
          · exact absurd (lt_of_lt_of_le hgap hzy) (not_lt.2 h.le)

/-- The synthesised gap after a stored zero-length interval is rejected by `Insert`. -/
theorem fill_gap_rejected [LinearOrder K] (t : ContiguousIntervalTree K V)
    (hc : TotalOrderCmp t.Comparator) (ho : Ordered t.Root)
    (pre post : List (Interval K × V)) (x y : Interval K × V) (v : V)
    (hsplit : t.Root.toList = pre ++ x :: y :: post)
    (hgap : x.1.End < y.1.Start) (hzero : x.1.Start = x.1.End) :
    (t.Insert (SimpleInterval x.1.End y.1.Start) v).1 = false := by
  refine (insertLoop_false_iff hc _ v t.Root ho).2 ⟨x.1, ?_, Or.inl ⟨?_, ?_⟩⟩
  · rw [intervals_of_toList_split hsplit]; simp
  · simp only [SimpleInterval]; exact hzero.ge
  · simp only [SimpleInterval]; rw [hzero]; exact hgap

/-- Filling a gap leaves the number of contiguous intervals as it was. -/
theorem fill_gap_numIntervals [LinearOrder K] (t : ContiguousIntervalTree K V)
    (hc : TotalOrderCmp t.Comparator) (ho : Ordered t.Root) (zero : V)
    (pre post : List (Interval K × V)) (x y : Interval K × V) (v : V)
    (hsplit : t.Root.toList = pre ++ x :: y :: post)
    (hgap : x.1.End < y.1.Start)
    (hres : (t.Insert (SimpleInterval x.1.End y.1.Start) v).1 = true) :
    (t.Insert (SimpleInterval x.1.End y.1.Start) v).2.NumIntervals zero
      = t.NumIntervals zero := by
  obtain ⟨hp, hs⟩ := ordered_sorted _ ho
  have hint := intervals_of_toList_split hsplit
  have ho2 : Ordered (insertLoop t.Comparator (SimpleInterval x.1.End y.1.Start) v t.Root).2 :=
    insertLoop_ordered hc _ v hgap.le t.Root ho
  obtain ⟨hp2, hs2⟩ := ordered_sorted _ ho2
  have hperm := (attachedAt_toList_perm
    (insertLoop_true_attached t.Comparator (SimpleInterval x.1.End y.1.Start) v t.Root hres)).map
      Prod.fst
  have hperm2 : (insertLoop t.Comparator (SimpleInterval x.1.End y.1.Start) v
      t.Root).2.intervals.Perm (SimpleInterval x.1.End y.1.Start ::
        (pre.map Prod.fst ++ x.1 :: y.1 :: post.map Prod.fst)) := by
    rw [← hint]
    simpa [ContiguousIntervalNode.intervals, ContiguousIntervalNode.toList] using hperm
  rw [hint] at hp hs
  have hnew := sorted_insert_between _ _ _ x.1 y.1 (SimpleInterval x.1.End y.1.Start) hp hs
    hp2 hs2 hperm2 hgap.le le_rfl le_rfl
  have hsize := insert_true_size t _ v hres
  rw [numIntervals_eq, numIntervals_eq, hsize]
  have hroot : (t.Insert (SimpleInterval x.1.End y.1.Start) v).2.Root.intervals
      = pre.map Prod.fst ++ x.1 :: SimpleInterval x.1.End y.1.Start :: y.1 ::
        post.map Prod.fst := hnew
  have hcomp : (t.Insert (SimpleInterval x.1.End y.1.Start) v).2.Comparator = t.Comparator :=
    rfl
  have e1 := gapCount_append_cons t.Comparator x.1
    (SimpleInterval x.1.End y.1.Start :: y.1 :: post.map Prod.fst) (pre.map Prod.fst)
  have e2 := gapCount_append_cons t.Comparator x.1 (y.1 :: post.map Prod.fst)
    (pre.map Prod.fst)
  rw [hroot, hcomp, hint, e1, e2]
  have h1 : ¬ t.Comparator x.1.End x.1.End < 0 := fun h => lt_irrefl _ ((hc.neg_iff _ _).1 h)
  have h2 : ¬ t.Comparator y.1.Start y.1.Start < 0 :=
    fun h => lt_irrefl _ ((hc.neg_iff _ _).1 h)
  have h3 : t.Comparator x.1.End y.1.Start < 0 := (hc.neg_iff _ _).2 hgap
  simp only [gapCount, SimpleInterval, if_neg h1, if_neg h2, if_pos h3]
  omega

end GapLemmas

/-! ## Lemmas on the stack -/

section StackLemmas

variable {A : Type}

theorem pop_push_one (zero : A) (s : Stack A) (x : A) :
    Stack.Pop zero (s ++ [x]) = ((x, true), s) := by
  simp [Stack.Pop, Stack.IsEmpty, Stack.Size, List.getD_eq_getElem?_getD]

theorem peek_push_one (zero : A) (s : Stack A) (x : A) :
    Stack.Peek zero (s ++ [x]) = ((x, true), s ++ [x]) := by
  simp [Stack.Peek, Stack.IsEmpty, Stack.Size, List.getD_eq_getElem?_getD]

theorem popN_push (zero : A) (s : Stack A) (items : List A) :
    Stack.popN zero items.length (s ++ items)
      = (items.reverse.map (fun x => (x, true)), s) := by
  induction items using List.reverseRecOn with
  | nil => simp [Stack.popN]
  | append_singleton l x ih =>
    rw [← List.append_assoc, List.length_append, List.length_singleton]
    simp only [Stack.popN, pop_push_one, ih]
    simp

end StackLemmas

/-! ## Lemmas on the binary tree -/

section BinaryTreeLemmas

variable {A : Type} {cmp : A → A → Int}

theorem TotalPreorderCmp.not_lt_iff (hc : TotalPreorderCmp cmp) (a b : A) :
    ¬ cmp a b < 0 ↔ cmp b a ≤ 0 := by
  rw [hc.swap a b]
  omega

theorem TotalPreorderCmp.lt_of_lt_of_le (hc : TotalPreorderCmp cmp) {a b c : A}
    (hab : cmp a b < 0) (hbc : cmp b c ≤ 0) : cmp a c < 0 := by
  by_contra hac
  have hca : cmp c a ≤ 0 := (hc.not_lt_iff a c).1 hac
  have hba : cmp b a ≤ 0 := hc.trans b c a hbc hca
  have := (hc.swap a b).1 hab
  omega

theorem TotalPreorderCmp.symm_zero (hc : TotalPreorderCmp cmp) {a b : A} (h : cmp a b = 0) :
    cmp b a = 0 := by
  have h1 := hc.swap a b
  have h2 := hc.swap b a
  omega

theorem compareKey_totalPreorder : TotalPreorderCmp compareKey := by
  constructor
  · intro a b
    unfold compareKey CompareInt
    split_ifs <;> omega
  · intro a b c
    unfold compareKey CompareInt
    split_ifs <;> omega

theorem binary_inOrder_eq : ∀ (t : TreeNode A) (out : List A),
    BinaryTree.inOrder t out = out ++ t.toList := by
  intro t
  induction t with
  | nil => intro out; simp [BinaryTree.inOrder, TreeNode.toList]
  | node v l r ihl ihr =>
    intro out
    simp [BinaryTree.inOrder, TreeNode.toList, ihl, ihr]

theorem stableInsert_cons_lt (v x : A) (L : List A) (h : cmp v x < 0) :
    stableInsert cmp v (x :: L) = v :: x :: L := by
  rw [stableInsert, if_pos h]

theorem stableInsert_cons_not_lt (v x : A) (L : List A) (h : ¬ cmp v x < 0) :
    stableInsert cmp v (x :: L) = x :: stableInsert cmp v L := by
  rw [stableInsert, if_neg h]

theorem stableInsert_append_left (v c : A) (R : List A) (h : cmp v c < 0) :
    ∀ L : List A, stableInsert cmp v (L ++ c :: R) = stableInsert cmp v L ++ c :: R := by
  intro L
  induction L with
  | nil => simp [stableInsert, h]
  | cons x L ih =>
    rw [List.cons_append]
    by_cases hx : cmp v x < 0
    · rw [stableInsert_cons_lt v x _ hx, stableInsert_cons_lt v x _ hx]
      rfl
    · rw [stableInsert_cons_not_lt v x _ hx, stableInsert_cons_not_lt v x _ hx, ih]
      rfl

theorem stableInsert_append_right (v c : A) (R : List A) (h : ¬ cmp v c < 0) :
    ∀ L : List A, (∀ x ∈ L, ¬ cmp v x < 0) →
      stableInsert cmp v (L ++ c :: R) = L ++ c :: stableInsert cmp v R := by
  intro L
  induction L with
  | nil => intro _; simp [stableInsert, h]
  | cons x L ih =>
    intro hL
    rw [List.cons_append, stableInsert_cons_not_lt v x _ (hL x (List.mem_cons_self _ _)),
      ih (fun y hy => hL y (List.mem_cons_of_mem _ hy))]
    rfl

theorem stableInsert_perm (v : A) : ∀ L : List A, (stableInsert cmp v L).Perm (v :: L) := by
  intro L
  induction L with
  | nil => simp [stableInsert]
  | cons x L ih =>
    simp only [stableInsert]
    split_ifs
    · exact List.Perm.refl _
    · exact (List.Perm.cons x ih).trans (List.Perm.swap v x L)

theorem stableInsert_sorted (hc : TotalPreorderCmp cmp) (v : A) :
    ∀ L : List A, L.Pairwise (fun a b => cmp a b ≤ 0) →
      (stableInsert cmp v L).Pairwise (fun a b => cmp a b ≤ 0) := by
  intro L
  induction L with
  | nil => intro _; simp [stableInsert]
  | cons x L ih =>
    intro hp
    have hp2 := List.pairwise_cons.1 hp
    simp only [stableInsert]
    split_ifs with hlt
    · refine List.pairwise_cons.2 ⟨?_, hp⟩
      intro y hy
      rcases List.mem_cons.1 hy with hy | hy
      · rw [hy]; omega
      · exact hc.trans v x y (by omega) (hp2.1 y hy)
    · refine List.pairwise_cons.2 ⟨?_, ih hp2.2⟩
      intro y hy
      rcases List.mem_cons.1 ((stableInsert_perm v L).mem_iff.1 hy) with hy | hy
      · rw [hy]; exact (hc.not_lt_iff v x).1 hlt
      · exact hp2.1 y hy

theorem stableInsert_filter (hc : TotalPreorderCmp cmp) (v a : A) :
    ∀ L : List A, L.Pairwise (fun a b => cmp a b ≤ 0) →
      (stableInsert cmp v L).filter (fun b => decide (cmp b a = 0))
        = L.filter (fun b => decide (cmp b a = 0)) ++ [v].filter (fun b => decide (cmp b a = 0)) := by
  intro L
  induction L with
  | nil => intro _; simp [stableInsert]
  | cons x L ih =>
    intro hp
    have hp2 := List.pairwise_cons.1 hp
    simp only [stableInsert]
    split_ifs with hlt
    · by_cases hva : cmp v a = 0
      · have hnone : (x :: L).filter (fun b => decide (cmp b a = 0)) = [] := by
          rw [List.filter_eq_nil_iff]
          intro y hy hya
          have hya2 : cmp y a = 0 := by simpa using hya
          have hxy : cmp x y ≤ 0 := by
            rcases List.mem_cons.1 hy with h | h
            · rw [h]
              have := hc.swap x x
              omega
            · exact hp2.1 y h
          have hvy : cmp v y < 0 := hc.lt_of_lt_of_le hlt hxy
          have hav : cmp a v = 0 := hc.symm_zero hva
          have hyv : cmp y v ≤ 0 := hc.trans y a v (by omega) (by omega)
          have := (hc.swap v y).1 hvy
          omega
        rw [List.filter_cons, hnone]
        simp [hva]
      · rw [List.filter_cons]
        simp [hva]
    · by_cases hxa : cmp x a = 0 <;> by_cases hva : cmp v a = 0 <;>
        simp [List.filter_cons, hxa, hva, ih hp2.2]

theorem toList_binary_insertLoop (hc : TotalPreorderCmp cmp) (v : A) :
    ∀ t : TreeNode A, t.toList.Pairwise (fun a b => cmp a b ≤ 0) →
      (BinaryTree.insertLoop cmp v t).toList = stableInsert cmp v t.toList := by
  intro t
  induction t with
  | nil => intro _; simp [BinaryTree.insertLoop, TreeNode.toList, stableInsert]
  | node c l r ihl ihr =>
    intro hp
    simp only [TreeNode.toList] at hp
    obtain ⟨hl, hcr, hcross⟩ := List.pairwise_append.1 hp
    have hr := (List.pairwise_cons.1 hcr).2
    simp only [BinaryTree.insertLoop]
    split_ifs with hlt
    · simp only [TreeNode.toList]
      rw [ihl hl, stableInsert_append_left v c _ hlt]
    · simp only [TreeNode.toList]
      rw [ihr hr, stableInsert_append_right v c _ hlt]
      intro x hx
      have hxc : cmp x c ≤ 0 := hcross x hx c (List.mem_cons_self _ _)
      have hcv : cmp c v ≤ 0 := (hc.not_lt_iff v c).1 hlt
      exact (hc.not_lt_iff v x).2 (hc.trans x c v hxc hcv)

theorem stableSort_sorted (hc : TotalPreorderCmp cmp) :
    ∀ (xs acc : List A), acc.Pairwise (fun a b => cmp a b ≤ 0) →
      (stableSort cmp acc xs).Pairwise (fun a b => cmp a b ≤ 0) := by
  intro xs
  induction xs with
  | nil => intro acc h; exact h
  | cons x xs ih => intro acc h; exact ih _ (stableInsert_sorted hc x acc h)

theorem stableSort_perm : ∀ (xs acc : List A), (stableSort cmp acc xs).Perm (acc ++ xs) := by
  intro xs
  induction xs with
  | nil => intro acc; simp [stableSort]
  | cons x xs ih =>
    intro acc
    refine (ih (stableInsert cmp x acc)).trans ?_
    refine ((stableInsert_perm x acc).append_right xs).trans ?_
    have hmid : (acc ++ x :: xs).Perm (x :: (acc ++ xs)) := List.perm_middle
    exact hmid.symm

theorem stableSort_filter (hc : TotalPreorderCmp cmp) (a : A) :
    ∀ (xs acc : List A), acc.Pairwise (fun a b => cmp a b ≤ 0) →
      (stableSort cmp acc xs).filter (fun b => decide (cmp b a = 0))
        = acc.filter (fun b => decide (cmp b a = 0))
          ++ xs.filter (fun b => decide (cmp b a = 0)) := by
  intro xs
  induction xs with
  | nil => intro acc _; simp [stableSort]
  | cons x xs ih =>
    intro acc h
    simp only [stableSort]
    rw [ih _ (stableInsert_sorted hc x acc h), stableInsert_filter hc x a acc h,
      List.append_assoc, ← List.filter_append]
    rfl

theorem binary_insertAll_toList (hc : TotalPreorderCmp cmp) :
    ∀ (xs : List A) (t : BinaryTree A), t.Comparator = cmp →
      t.Root.toList.Pairwise (fun a b => cmp a b ≤ 0) →
      (BinaryTree.insertAll t xs).Root.toList = stableSort cmp t.Root.toList xs := by
  intro xs
  induction xs with
  | nil => intro t _ _; rfl
  | cons x xs ih =>
    intro t ht hp
    simp only [BinaryTree.insertAll, stableSort]
    have hroot : (t.Insert x).Root.toList = stableInsert cmp x t.Root.toList := by
      simp only [BinaryTree.Insert, ht]
      exact toList_binary_insertLoop hc x t.Root hp
    rw [ih (t.Insert x) ht (by rw [hroot]; exact stableInsert_sorted hc x _ hp), hroot]

end BinaryTreeLemmas

/-! ## Verified claims -/

section Claims

variable {K V : Type}

/-- C1: in a tree built from the empty tree by `Insert` calls with `Start ≤ End`, over a
total-order comparator, inserting a candidate `[s,e)` that overlaps a stored interval `[a,b)`
(`s < b` and `a < e`) returns `false` and leaves the tree unchanged, so `NumIntervals()` and
`Size()` are the same before and after.  The candidate's `s ≤ e` and the stored interval's
`a < b` are not needed for the rejection. -/
theorem insert_overlap_rejected [LinearOrder K] (cmp : K → K → Int) (hc : TotalOrderCmp cmp)
    (zero : V) (ops : List (Interval K × V)) (hops : ∀ p ∈ ops, cmp p.1.Start p.1.End ≤ 0)
    (i : Interval K) (v : V) (x : Interval K)
    (hx : x ∈ (insertAll (NewContiguousIntervalTree cmp) ops).Root.intervals)
    (hs : cmp i.Start x.End < 0) (he : cmp x.Start i.End < 0) :
    ((insertAll (NewContiguousIntervalTree cmp) ops).Insert i v).1 = false ∧
    ((insertAll (NewContiguousIntervalTree cmp) ops).Insert i v).2
      = insertAll (NewContiguousIntervalTree cmp) ops ∧
    ((insertAll (NewContiguousIntervalTree cmp) ops).Insert i v).2.NumIntervals zero
      = (insertAll (NewContiguousIntervalTree cmp) ops).NumIntervals zero ∧
    ((insertAll (NewContiguousIntervalTree cmp) ops).Insert i v).2.Size
      = (insertAll (NewContiguousIntervalTree cmp) ops).Size := by
  have hcmp : (insertAll (NewContiguousIntervalTree (V := V) cmp) ops).Comparator = cmp :=
    insertAll_comparator _ _
  have hfalse : ((insertAll (NewContiguousIntervalTree cmp) ops).Insert i v).1 = false := by
    simp only [ContiguousIntervalTree.Insert, hcmp]
    exact insertLoop_overlap hc i v _ (built_ordered hc ops hops) x hx
      ((hc.neg_iff _ _).1 hs) ((hc.neg_iff _ _).1 he)
  have hsame := insert_false_unchanged _ i v hfalse
  exact ⟨hfalse, hsame, by rw [hsame], by rw [hsame]⟩

/-- Witness for C1: after inserting `[5,10)`, the overlapping candidate `[2,6)` is rejected. -/
theorem insert_overlap_rejected_witness :
    ((insertAll (NewContiguousIntervalTree CompareInt) [(SimpleInterval 5 10, "data")]).Insert
        (SimpleInterval 2 6) "data").1 = false ∧
    ((insertAll (NewContiguousIntervalTree CompareInt) [(SimpleInterval 5 10, "data")]).Insert
        (SimpleInterval 2 6) "data").2
      = insertAll (NewContiguousIntervalTree CompareInt) [(SimpleInterval 5 10, "data")] ∧
    ((insertAll (NewContiguousIntervalTree CompareInt) [(SimpleInterval 5 10, "data")]).Insert
        (SimpleInterval 2 6) "data").2.NumIntervals ""
      = (insertAll (NewContiguousIntervalTree CompareInt)
          [(SimpleInterval 5 10, "data")]).NumIntervals "" ∧
    ((insertAll (NewContiguousIntervalTree CompareInt) [(SimpleInterval 5 10, "data")]).Insert
        (SimpleInterval 2 6) "data").2.Size
      = (insertAll (NewContiguousIntervalTree CompareInt) [(SimpleInterval 5 10, "data")]).Size :=
  insert_overlap_rejected CompareInt compareInt_totalOrder "" [(SimpleInterval 5 10, "data")]
    (by decide) (SimpleInterval 2 6) "data" (SimpleInterval 5 10) (by decide) (by decide)
    (by decide)

/-- C2: for every tree, interval `i` and value `v`: either `Insert(i, v)` returns `false` and
the tree is identical to the tree before the call, or it returns `true` and the new tree is the
old one (same comparator) with exactly one empty link, the empty root or an empty child slot of
an existing node, replaced by the leaf holding `(i, v)`, every pre-existing node keeping its
interval, value and occupied links. -/
theorem insert_frame (t : ContiguousIntervalTree K V) (i : Interval K) (v : V) :
    ((t.Insert i v).1 = false ∧ (t.Insert i v).2 = t) ∨
    ((t.Insert i v).1 = true ∧ (t.Insert i v).2.Comparator = t.Comparator ∧
      AttachedAt (.node i v .nil .nil) t.Root (t.Insert i v).2.Root) := by
  cases hres : (t.Insert i v).1 with
  | false => exact Or.inl ⟨rfl, insert_false_unchanged t i v hres⟩
  | true =>
    refine Or.inr ⟨rfl, rfl, ?_⟩
    exact insertLoop_true_attached t.Comparator i v t.Root hres

/-- C4: for every tree, the sequence emitted by `TraverseInOrder` is the reference sequence
built from the left-self-right list of stored pairs by inserting one synthetic pair
`(SimpleInterval{x.end, y.start}, zero)` between consecutive stored `x` then `y` exactly when
`cmp(x.end, y.start) < 0`; the first and the last emitted pairs are the first and the last
stored pairs, so no synthetic pair comes before the first or after the last stored interval;
and inserting `{9,10}` then `{1,4}` yields `{1,4}:data, {4,9}:<zero>, {9,10}:data`. -/
theorem traverseInOrder_reference (t : ContiguousIntervalTree K V) (zero : V) :
    t.TraverseInOrder zero = referenceTraversal t.Comparator zero t.Root.toList ∧
    (t.TraverseInOrder zero).head? = t.Root.toList.head? ∧
    (t.TraverseInOrder zero).getLast? = t.Root.toList.getLast? ∧
    (insertAll (NewContiguousIntervalTree CompareInt)
        [(SimpleInterval 9 10, "data"), (SimpleInterval 1 4, "data")]).TraverseInOrder ""
      = [(SimpleInterval 1 4, "data"), (SimpleInterval 4 9, ""), (SimpleInterval 9 10, "data")] := by
  refine ⟨traverseInOrder_eq t zero, ?_, ?_, by decide⟩
  · rw [traverseInOrder_eq, referenceTraversal_head]
  · rw [traverseInOrder_eq, referenceTraversal_getLast]

/-- C3: in a tree built from the empty tree by `Insert` calls with `Start ≤ End`, over a
total-order comparator, the intervals emitted by `TraverseInOrder` form a contiguous partition
of the spanned range: any two consecutive emitted intervals `x` then `y` have `x.End` equal to
`y.Start` under the comparator, the first emitted start is the smallest stored start, and the
last emitted end is the largest stored end. -/
theorem traverseInOrder_contiguous [LinearOrder K] (cmp : K → K → Int)
    (hc : TotalOrderCmp cmp) (zero : V) (ops : List (Interval K × V))
    (hops : ∀ p ∈ ops, cmp p.1.Start p.1.End ≤ 0) :
    List.Chain' (fun x y => cmp x.1.End y.1.Start = 0)
      ((insertAll (NewContiguousIntervalTree cmp) ops).TraverseInOrder zero) ∧
    (((insertAll (NewContiguousIntervalTree cmp) ops).TraverseInOrder zero).head?.map
        fun e => e.1.Start)
      = minStartOf cmp (insertAll (NewContiguousIntervalTree cmp) ops).Root.intervals ∧
    (((insertAll (NewContiguousIntervalTree cmp) ops).TraverseInOrder zero).getLast?.map
        fun e => e.1.End)
      = maxEndOf cmp (insertAll (NewContiguousIntervalTree cmp) ops).Root.intervals := by
  have hcmp : (insertAll (NewContiguousIntervalTree (V := V) cmp) ops).Comparator = cmp :=
    insertAll_comparator _ _
  obtain ⟨hp, hs⟩ := ordered_sorted _ (built_ordered hc ops hops)
  have hp2 := List.pairwise_map.1 hp
  have hs2 : ∀ x ∈ (insertAll (NewContiguousIntervalTree cmp) ops).Root.toList,
      x.1.Start ≤ x.1.End := fun x hx => hs x.1 (mem_intervals_of_mem_toList hx)
  refine ⟨?_, ?_, ?_⟩
  · rw [traverseInOrder_eq, hcmp]
    refine referenceTraversal_chain cmp zero (fun x y => cmp x.End y.Start = 0) ?_ ?_ _ hp2 hs2
    · intro x y _ hxy hlt
      exact (hc.zero_iff _ _).2 (le_antisymm hxy (not_lt.1 (fun h => hlt ((hc.neg_iff _ _).2 h))))
    · intro x y _ _
      exact ⟨(hc.zero_iff _ _).2 rfl, (hc.zero_iff _ _).2 rfl⟩
  · rw [traverseInOrder_eq, referenceTraversal_head, minStartOf_sorted hc _ hp hs]
    simp only [ContiguousIntervalNode.intervals, List.head?_map, Option.map_map]
    rfl
  · rw [traverseInOrder_eq, referenceTraversal_getLast, maxEndOf_sorted hc _ hp hs]
    simp only [ContiguousIntervalNode.intervals, List.getLast?_map, Option.map_map]
    rfl

/-- Witness for C3: the six insertions of the sorted-order test. -/
theorem traverseInOrder_contiguous_witness :
    List.Chain' (fun x y => CompareInt x.1.End y.1.Start = 0)
      ((insertAll (NewContiguousIntervalTree CompareInt)
        [(SimpleInterval 6 9, "data"), (SimpleInterval 1 2, "data"),
          (SimpleInterval 3 4, "data"), (SimpleInterval 2 3, "data"),
          (SimpleInterval 12 14, "data"), (SimpleInterval 10 12, "data")]).TraverseInOrder "") ∧
    (((insertAll (NewContiguousIntervalTree CompareInt)
        [(SimpleInterval 6 9, "data"), (SimpleInterval 1 2, "data"),
          (SimpleInterval 3 4, "data"), (SimpleInterval 2 3, "data"),
          (SimpleInterval 12 14, "data"),
          (SimpleInterval 10 12, "data")]).TraverseInOrder "").head?.map fun e => e.1.Start)
      = minStartOf CompareInt (insertAll (NewContiguousIntervalTree CompareInt)
        [(SimpleInterval 6 9, "data"), (SimpleInterval 1 2, "data"),
          (SimpleInterval 3 4, "data"), (SimpleInterval 2 3, "data"),
          (SimpleInterval 12 14, "data"), (SimpleInterval 10 12, "data")]).Root.intervals ∧
    (((insertAll (NewContiguousIntervalTree CompareInt)
        [(SimpleInterval 6 9, "data"), (SimpleInterval 1 2, "data"),
          (SimpleInterval 3 4, "data"), (SimpleInterval 2 3, "data"),
          (SimpleInterval 12 14, "data"),
          (SimpleInterval 10 12, "data")]).TraverseInOrder "").getLast?.map fun e => e.1.End)
      = maxEndOf CompareInt (insertAll (NewContiguousIntervalTree CompareInt)
        [(SimpleInterval 6 9, "data"), (SimpleInterval 1 2, "data"),
          (SimpleInterval 3 4, "data"), (SimpleInterval 2 3, "data"),
          (SimpleInterval 12 14, "data"), (SimpleInterval 10 12, "data")]).Root.intervals :=
  traverseInOrder_contiguous CompareInt compareInt_totalOrder ""
    [(SimpleInterval 6 9, "data"), (SimpleInterval 1 2, "data"),
      (SimpleInterval 3 4, "data"), (SimpleInterval 2 3, "data"),
      (SimpleInterval 12 14, "data"), (SimpleInterval 10 12, "data")] (by decide)

/-- Counterexample to C5 as stated: inserting the zero-length interval `[1,1)` twice (both
calls succeed) stores two intervals with the same start, so neither the stored intervals nor
the visitor calls come in strictly increasing start order. -/
theorem strictly_increasing_starts_counterexample :
    (∀ p ∈ [(SimpleInterval (1 : Int) 1, "data"), (SimpleInterval 1 1, "data")],
      CompareInt p.1.Start p.1.End ≤ 0) ∧
    ¬ List.Chain' (fun x y => CompareInt x.Start y.Start < 0)
      (insertAll (NewContiguousIntervalTree CompareInt)
        [(SimpleInterval 1 1, "data"), (SimpleInterval 1 1, "data")]).Root.intervals ∧
    ¬ List.Chain' (fun x y => CompareInt x.1.Start y.1.Start < 0)
      ((insertAll (NewContiguousIntervalTree CompareInt)
        [(SimpleInterval 1 1, "data"), (SimpleInterval 1 1, "data")]).TraverseInOrder "") := by
  have h1 : (insertAll (NewContiguousIntervalTree CompareInt)
      [(SimpleInterval 1 1, "data"), (SimpleInterval 1 1, "data")]).Root.intervals
      = [SimpleInterval 1 1, SimpleInterval 1 1] := by decide
  have h2 : (insertAll (NewContiguousIntervalTree CompareInt)
      [(SimpleInterval 1 1, "data"), (SimpleInterval 1 1, "data")]).TraverseInOrder ""
      = [(SimpleInterval 1 1, "data"), (SimpleInterval 1 1, "data")] := by decide
  rw [h1, h2]
  refine ⟨by decide, ?_, ?_⟩
  · intro h
    exact absurd (List.chain'_cons.1 h).1 (by decide)
  · intro h
    exact absurd (List.chain'_cons.1 h).1 (by decide)

/-- C5 (amended): in a tree built from the empty tree by `Insert` calls with `Start ≤ End`,
over a total-order comparator, the stored intervals in in-order have non-decreasing starts,
and the start strictly increases from any interval of positive length to its successor; the
same holds for the sequence of intervals handed to the visitor by `TraverseInOrder`.  Equal
consecutive starts therefore occur only after a zero-length interval. -/
theorem starts_nondecreasing [LinearOrder K] (cmp : K → K → Int)
    (hc : TotalOrderCmp cmp) (zero : V) (ops : List (Interval K × V))
    (hops : ∀ p ∈ ops, cmp p.1.Start p.1.End ≤ 0) :
    List.Chain'
      (fun x y => cmp x.Start y.Start ≤ 0 ∧ (cmp x.Start x.End < 0 → cmp x.Start y.Start < 0))
      (insertAll (NewContiguousIntervalTree cmp) ops).Root.intervals ∧
    List.Chain'
      (fun x y => cmp x.1.Start y.1.Start ≤ 0 ∧
        (cmp x.1.Start x.1.End < 0 → cmp x.1.Start y.1.Start < 0))
      ((insertAll (NewContiguousIntervalTree cmp) ops).TraverseInOrder zero) := by
  have hcmp : (insertAll (NewContiguousIntervalTree (V := V) cmp) ops).Comparator = cmp :=
    insertAll_comparator _ _
  obtain ⟨hp, hs⟩ := ordered_sorted _ (built_ordered hc ops hops)
  have hp2 := List.pairwise_map.1 hp
  have hs2 : ∀ x ∈ (insertAll (NewContiguousIntervalTree cmp) ops).Root.toList,
      x.1.Start ≤ x.1.End := fun x hx => hs x.1 (mem_intervals_of_mem_toList hx)
  have key : ∀ x y : Interval K, x.Start ≤ x.End → x.End ≤ y.Start →
      cmp x.Start y.Start ≤ 0 ∧ (cmp x.Start x.End < 0 → cmp x.Start y.Start < 0) := by
    intro x y hx hxy
    refine ⟨(hc.le_iff _ _).2 (hx.trans hxy), fun h => ?_⟩
    exact (hc.neg_iff _ _).2 (lt_of_lt_of_le ((hc.neg_iff _ _).1 h) hxy)
  constructor
  · apply List.Pairwise.chain'
    exact hp.imp_of_mem (fun {a b} ha _ hab => key a b (hs a ha) hab)
  · rw [traverseInOrder_eq, hcmp]
    refine referenceTraversal_chain cmp zero
      (fun x y => cmp x.Start y.Start ≤ 0 ∧ (cmp x.Start x.End < 0 → cmp x.Start y.Start < 0))
      ?_ ?_ _ hp2 hs2
    · intro x y hx hxy _
      exact key x y hx hxy
    · intro x y hx hlt
      refine ⟨key x _ hx le_rfl, ?_⟩
      exact ⟨(hc.le_iff _ _).2 ((hc.neg_iff _ _).1 hlt).le, fun _ => hlt⟩

/-- Witness for C5 (amended): the stacked zero-length intervals of the counterexample. -/
theorem starts_nondecreasing_witness :
    List.Chain'
      (fun x y => CompareInt x.Start y.Start ≤ 0 ∧
        (CompareInt x.Start x.End < 0 → CompareInt x.Start y.Start < 0))
      (insertAll (NewContiguousIntervalTree CompareInt)
        [(SimpleInterval 1 1, "data"), (SimpleInterval 1 1, "data"),
          (SimpleInterval 4 6, "data")]).Root.intervals ∧
    List.Chain'
      (fun x y => CompareInt x.1.Start y.1.Start ≤ 0 ∧
        (CompareInt x.1.Start x.1.End < 0 → CompareInt x.1.Start y.1.Start < 0))
      ((insertAll (NewContiguousIntervalTree CompareInt)
        [(SimpleInterval 1 1, "data"), (SimpleInterval 1 1, "data"),
          (SimpleInterval 4 6, "data")]).TraverseInOrder "") :=
  starts_nondecreasing CompareInt compareInt_totalOrder ""
    [(SimpleInterval 1 1, "data"), (SimpleInterval 1 1, "data"), (SimpleInterval 4 6, "data")]
    (by decide)

/-- Counterexample to C6 as stated: after inserting only `[1,3)`, the point `3` is at the
last interval's end (the largest stored end is `3`), yet `Find(3)` is `true`, not `false`. -/
theorem find_at_last_end_counterexample :
    (∀ q ∈ [(SimpleInterval (1 : Int) 3, "data")], CompareInt q.1.Start q.1.End ≤ 0) ∧
    maxEndOf CompareInt (insertAll (NewContiguousIntervalTree CompareInt)
      [(SimpleInterval 1 3, "data")]).Root.intervals = some 3 ∧
    CompareInt 3 3 = 0 ∧
    (insertAll (NewContiguousIntervalTree CompareInt) [(SimpleInterval 1 3, "data")]).Find 3
      = true := by
  decide

/-- C6 (amended): in a tree built from the empty tree by `Insert` calls with `Start ≤ End`,
over a total-order comparator, `Find(p)` is `true` when `p` falls inside a stored interval
(`start ≤ p ≤ end`) or in the gap between two stored intervals (`x.end ≤ p ≤ y.start`), and
also when `p` equals the last interval's end; `Find(p)` is `false` when `p` is before the
first interval's start or strictly after the last interval's end. -/
theorem find_inside_gap_outside [LinearOrder K] (cmp : K → K → Int)
    (hc : TotalOrderCmp cmp) (ops : List (Interval K × V))
    (hops : ∀ q ∈ ops, cmp q.1.Start q.1.End ≤ 0) (p : K) :
    (∀ x ∈ (insertAll (NewContiguousIntervalTree cmp) ops).Root.intervals,
      cmp x.Start p ≤ 0 → cmp p x.End ≤ 0 →
        (insertAll (NewContiguousIntervalTree cmp) ops).Find p = true) ∧
    (∀ x ∈ (insertAll (NewContiguousIntervalTree cmp) ops).Root.intervals,
      ∀ y ∈ (insertAll (NewContiguousIntervalTree cmp) ops).Root.intervals,
        cmp x.End p ≤ 0 → cmp p y.Start ≤ 0 →
          (insertAll (NewContiguousIntervalTree cmp) ops).Find p = true) ∧
    (∀ lo, minStartOf cmp (insertAll (NewContiguousIntervalTree cmp) ops).Root.intervals
        = some lo → cmp p lo < 0 →
      (insertAll (NewContiguousIntervalTree cmp) ops).Find p = false) ∧
    (∀ hi, maxEndOf cmp (insertAll (NewContiguousIntervalTree cmp) ops).Root.intervals
        = some hi → cmp hi p < 0 →
      (insertAll (NewContiguousIntervalTree cmp) ops).Find p = false) ∧
    (∀ hi, maxEndOf cmp (insertAll (NewContiguousIntervalTree cmp) ops).Root.intervals
        = some hi → cmp hi p = 0 →
      (insertAll (NewContiguousIntervalTree cmp) ops).Find p = true) := by
  have hcmp : (insertAll (NewContiguousIntervalTree (V := V) cmp) ops).Comparator = cmp :=
    insertAll_comparator _ _
  have hc2 : TotalOrderCmp (insertAll (NewContiguousIntervalTree (V := V) cmp) ops).Comparator := by
    rw [hcmp]; exact hc
  have ho := built_ordered hc ops hops
  obtain ⟨hp, hs⟩ := ordered_sorted _ ho
  have hiff := find_true_iff _ hc2 ho p
  rw [hcmp] at hiff
  have hbetween : ∀ x ∈ (insertAll (NewContiguousIntervalTree cmp) ops).Root.intervals,
      ∀ y ∈ (insertAll (NewContiguousIntervalTree cmp) ops).Root.intervals,
        x.Start ≤ p → p ≤ y.End →
          (insertAll (NewContiguousIntervalTree cmp) ops).Find p = true := by
    intro x hx y hy hxp hpy
    have hne : (insertAll (NewContiguousIntervalTree cmp) ops).Root ≠ .nil := by
      intro h
      rw [h] at hx
      simp [ContiguousIntervalNode.intervals, ContiguousIntervalNode.toList] at hx
    cases hres : (insertAll (NewContiguousIntervalTree cmp) ops).Find p with
    | true => rfl
    | false =>
      rcases (find_false_iff_outside _ hc2 ho hne p).1 hres with hh | hh
      · exact absurd (hh x hx) (not_lt.2 hxp)
      · exact absurd (hh y hy) (not_lt.2 hpy)
  refine ⟨?_, ?_, ?_, ?_, ?_⟩
  · intro x hx h1 h2
    exact hbetween x hx x hx ((hc.le_iff _ _).1 h1) ((hc.le_iff _ _).1 h2)
  · intro x hx y hy h1 h2
    exact hbetween x hx y hy ((hs x hx).trans ((hc.le_iff _ _).1 h1))
      (((hc.le_iff _ _).1 h2).trans (hs y hy))
  · intro lo hlo hlt
    cases hres : (insertAll (NewContiguousIntervalTree cmp) ops).Find p with
    | false => rfl
    | true =>
      obtain ⟨lo2, hi2, h1, _, h3, _⟩ := hiff.1 hres
      rw [hlo] at h1
      cases h1
      exact absurd ((hc.neg_iff _ _).1 hlt) (not_lt.2 h3)
  · intro hi hhi hlt
    cases hres : (insertAll (NewContiguousIntervalTree cmp) ops).Find p with
    | false => rfl
    | true =>
      obtain ⟨lo2, hi2, _, h2, _, h4⟩ := hiff.1 hres
      rw [hhi] at h2
      cases h2
      exact absurd ((hc.neg_iff _ _).1 hlt) (not_lt.2 h4)
  · intro hi hhi heq
    have hpe : hi = p := (hc.zero_iff _ _).1 heq
    rw [maxEndOf_sorted hc _ hp hs] at hhi
    obtain ⟨z, hz, hze⟩ := Option.map_eq_some'.1 hhi
    have hzmem := List.mem_of_getLast?_eq_some hz
    refine hbetween z hzmem z hzmem ?_ ?_
    · rw [← hpe, ← hze]; exact hs z hzmem
    · rw [← hpe, ← hze]

/-- Witness for C6 (amended): the point `5` against the stored intervals `[1,3)` and `[6,8)`;
it lies in the gap between them. -/
theorem find_inside_gap_outside_witness :
    ((∀ x ∈ (insertAll (NewContiguousIntervalTree CompareInt)
        [(SimpleInterval 1 3, "data"), (SimpleInterval 6 8, "data")]).Root.intervals,
      CompareInt x.Start 5 ≤ 0 → CompareInt 5 x.End ≤ 0 →
        (insertAll (NewContiguousIntervalTree CompareInt)
        [(SimpleInterval 1 3, "data"), (SimpleInterval 6 8, "data")]).Find 5 = true) ∧
    (∀ x ∈ (insertAll (NewContiguousIntervalTree CompareInt)
        [(SimpleInterval 1 3, "data"), (SimpleInterval 6 8, "data")]).Root.intervals,
      ∀ y ∈ (insertAll (NewContiguousIntervalTree CompareInt)
        [(SimpleInterval 1 3, "data"), (SimpleInterval 6 8, "data")]).Root.intervals,
        CompareInt x.End 5 ≤ 0 → CompareInt 5 y.Start ≤ 0 →
          (insertAll (NewContiguousIntervalTree CompareInt)
        [(SimpleInterval 1 3, "data"), (SimpleInterval 6 8, "data")]).Find 5 = true) ∧
    (∀ lo, minStartOf CompareInt (insertAll (NewContiguousIntervalTree CompareInt)
        [(SimpleInterval 1 3, "data"), (SimpleInterval 6 8, "data")]).Root.intervals
        = some lo → CompareInt 5 lo < 0 →
      (insertAll (NewContiguousIntervalTree CompareInt)
        [(SimpleInterval 1 3, "data"), (SimpleInterval 6 8, "data")]).Find 5 = false) ∧
    (∀ hi, maxEndOf CompareInt (insertAll (NewContiguousIntervalTree CompareInt)
        [(SimpleInterval 1 3, "data"), (SimpleInterval 6 8, "data")]).Root.intervals
        = some hi → CompareInt hi 5 < 0 →
      (insertAll (NewContiguousIntervalTree CompareInt)
        [(SimpleInterval 1 3, "data"), (SimpleInterval 6 8, "data")]).Find 5 = false) ∧
    (∀ hi, maxEndOf CompareInt (insertAll (NewContiguousIntervalTree CompareInt)
        [(SimpleInterval 1 3, "data"), (SimpleInterval 6 8, "data")]).Root.intervals
        = some hi → CompareInt hi 5 = 0 →
      (insertAll (NewContiguousIntervalTree CompareInt)
        [(SimpleInterval 1 3, "data"), (SimpleInterval 6 8, "data")]).Find 5 = true)) ∧
    (insertAll (NewContiguousIntervalTree CompareInt)
        [(SimpleInterval 1 3, "data"), (SimpleInterval 6 8, "data")]).Find 5 = true :=
  ⟨find_inside_gap_outside CompareInt compareInt_totalOrder
    [(SimpleInterval 1 3, "data"), (SimpleInterval 6 8, "data")] (by decide) 5, by decide⟩

/-- C7: in a tree built from the empty tree by `Insert` calls with `Start ≤ End`, over a
total-order comparator, `Find(p)` is `true` if and only if the tree is non-empty and
`minStart ≤ p ≤ maxEnd`, both bounds inclusive, where `minStart` is the smallest stored start
and `maxEnd` the largest stored end; `Find` is `false` everywhere on the empty tree; and after
inserting only `[1,3)`, `Find(0) = Find(4) = false` and `Find(1) = Find(2) = Find(3) = true`. -/
theorem find_iff_within_span [LinearOrder K] (cmp : K → K → Int)
    (hc : TotalOrderCmp cmp) (ops : List (Interval K × V))
    (hops : ∀ q ∈ ops, cmp q.1.Start q.1.End ≤ 0) (p : K) :
    ((insertAll (NewContiguousIntervalTree cmp) ops).Find p = true ↔
      (insertAll (NewContiguousIntervalTree cmp) ops).Root ≠ .nil ∧
      ∃ lo hi,
        minStartOf cmp (insertAll (NewContiguousIntervalTree cmp) ops).Root.intervals
          = some lo ∧
        maxEndOf cmp (insertAll (NewContiguousIntervalTree cmp) ops).Root.intervals
          = some hi ∧
        cmp lo p ≤ 0 ∧ cmp p hi ≤ 0) ∧
    (NewContiguousIntervalTree cmp : ContiguousIntervalTree K V).Find p = false ∧
    (insertAll (NewContiguousIntervalTree CompareInt) [(SimpleInterval 1 3, "data")]).Find 0
      = false ∧
    (insertAll (NewContiguousIntervalTree CompareInt) [(SimpleInterval 1 3, "data")]).Find 4
      = false ∧
    (insertAll (NewContiguousIntervalTree CompareInt) [(SimpleInterval 1 3, "data")]).Find 1
      = true ∧
    (insertAll (NewContiguousIntervalTree CompareInt) [(SimpleInterval 1 3, "data")]).Find 2
      = true ∧
    (insertAll (NewContiguousIntervalTree CompareInt) [(SimpleInterval 1 3, "data")]).Find 3
      = true := by
  have hcmp : (insertAll (NewContiguousIntervalTree (V := V) cmp) ops).Comparator = cmp :=
    insertAll_comparator _ _
  have hc2 : TotalOrderCmp (insertAll (NewContiguousIntervalTree (V := V) cmp) ops).Comparator := by
    rw [hcmp]; exact hc
  have hiff := find_true_iff _ hc2 (built_ordered hc ops hops) p
  rw [hcmp] at hiff
  refine ⟨?_, rfl, by decide, by decide, by decide, by decide, by decide⟩
  rw [hiff]
  constructor
  · rintro ⟨lo, hi, h1, h2, h3, h4⟩
    refine ⟨?_, lo, hi, h1, h2, (hc.le_iff _ _).2 h3, (hc.le_iff _ _).2 h4⟩
    intro hnil
    rw [hnil] at h1
    cases h1
  · rintro ⟨_, lo, hi, h1, h2, h3, h4⟩
    exact ⟨lo, hi, h1, h2, (hc.le_iff _ _).1 h3, (hc.le_iff _ _).1 h4⟩

/-- Witness for C7: `Find(5)` in the tree holding `[1,3)` and `[6,8)`. -/
theorem find_iff_within_span_witness :
    ((insertAll (NewContiguousIntervalTree CompareInt)
        [(SimpleInterval 1 3, "data"), (SimpleInterval 6 8, "data")]).Find 5 = true ↔
      (insertAll (NewContiguousIntervalTree CompareInt)
        [(SimpleInterval 1 3, "data"), (SimpleInterval 6 8, "data")]).Root ≠ .nil ∧
      ∃ lo hi,
        minStartOf CompareInt (insertAll (NewContiguousIntervalTree CompareInt)
          [(SimpleInterval 1 3, "data"), (SimpleInterval 6 8, "data")]).Root.intervals
          = some lo ∧
        maxEndOf CompareInt (insertAll (NewContiguousIntervalTree CompareInt)
          [(SimpleInterval 1 3, "data"), (SimpleInterval 6 8, "data")]).Root.intervals
          = some hi ∧
        CompareInt lo 5 ≤ 0 ∧ CompareInt 5 hi ≤ 0) :=
  (find_iff_within_span CompareInt compareInt_totalOrder
    [(SimpleInterval 1 3, "data"), (SimpleInterval 6 8, "data")] (by decide) 5).1

/-- C8: once one insertion of the zero-length interval `[p,p)` has returned `true`, each of
the `n` further insertions of `[p,p)` returns `true` and makes `Size()` grow by exactly one;
and starting from the empty tree, `n` insertions of `[p,p)` all succeed and give `Size() = n`.
This holds for every tree and every comparator, in particular for the trees built by `Insert`
calls. -/
theorem zero_length_stacking (t : ContiguousIntervalTree K V) (cmp : K → K → Int) (p : K)
    (v : V) (vs : Nat → V) (n : Nat) (h : (t.Insert (SimpleInterval p p) v).1 = true) :
    (∀ k < n,
      ((repeatInsert (t.Insert (SimpleInterval p p) v).2 (SimpleInterval p p) vs k).Insert
        (SimpleInterval p p) (vs k)).1 = true ∧
      (repeatInsert (t.Insert (SimpleInterval p p) v).2 (SimpleInterval p p) vs (k + 1)).Size
        = (repeatInsert (t.Insert (SimpleInterval p p) v).2 (SimpleInterval p p) vs k).Size
          + 1) ∧
    (∀ k < n,
      ((repeatInsert (NewContiguousIntervalTree cmp) (SimpleInterval p p) vs k).Insert
        (SimpleInterval p p) (vs k)).1 = true) ∧
    (repeatInsert (NewContiguousIntervalTree cmp) (SimpleInterval p p) vs n).Size
      = n := by
  have hempty : ∀ k : Nat,
      ((repeatInsert (NewContiguousIntervalTree (V := V) cmp) (SimpleInterval p p) vs
        k).Insert (SimpleInterval p p) (vs k)).1 = true := by
    intro k
    induction k with
    | zero => rfl
    | succ k ih => exact insert_point_again _ p (vs k) (vs (k + 1)) ih
  refine ⟨fun k _ => ⟨repeatInsert_point_succeeds t p v vs h k, ?_⟩, fun k _ => hempty k, ?_⟩
  · exact insert_true_size _ _ _ (repeatInsert_point_succeeds t p v vs h k)
  · clear h
    induction n with
    | zero => rfl
    | succ m ih =>
      show ((repeatInsert _ _ vs m).Insert _ (vs m)).2.Size = m + 1
      rw [insert_true_size _ _ _ (hempty m), ih]

/-- Witness for C8: `[3,3)` is accepted to the right of `[1,3)`, then three more times. -/
theorem zero_length_stacking_witness :
    (∀ k < 3,
      ((repeatInsert ((insertAll (NewContiguousIntervalTree CompareInt)
          [(SimpleInterval 1 3, "data")]).Insert (SimpleInterval 3 3) "data").2
          (SimpleInterval 3 3) (fun _ => "data") k).Insert
        (SimpleInterval 3 3) "data").1 = true ∧
      (repeatInsert ((insertAll (NewContiguousIntervalTree CompareInt)
          [(SimpleInterval 1 3, "data")]).Insert (SimpleInterval 3 3) "data").2
          (SimpleInterval 3 3) (fun _ => "data") (k + 1)).Size
        = (repeatInsert ((insertAll (NewContiguousIntervalTree CompareInt)
          [(SimpleInterval 1 3, "data")]).Insert (SimpleInterval 3 3) "data").2
          (SimpleInterval 3 3) (fun _ => "data") k).Size + 1) ∧
    (∀ k < 3,
      ((repeatInsert (NewContiguousIntervalTree CompareInt) (SimpleInterval 3 3)
        (fun _ => "data") k).Insert (SimpleInterval 3 3) "data").1 = true) ∧
    (repeatInsert (NewContiguousIntervalTree CompareInt) (SimpleInterval 3 3)
      (fun _ => "data") 3).Size = 3 :=
  zero_length_stacking
    (insertAll (NewContiguousIntervalTree CompareInt) [(SimpleInterval 1 3, "data")])
    CompareInt 3 "data" (fun _ => "data") 3 (by decide)

/-- C9: in a tree built from the empty tree by `Insert` calls with `Start ≤ End`, over a
total-order comparator, inserting the zero-length interval `[p,p)` returns `false` if and
only if some stored interval `[a,b)` has `a < p < b`; hence the insertion succeeds whenever no
stored interval has `p` strictly inside, in particular when `p` is the start or the end of a
stored interval. -/
theorem zero_length_rejected_iff [LinearOrder K] (cmp : K → K → Int)
    (hc : TotalOrderCmp cmp) (ops : List (Interval K × V))
    (hops : ∀ q ∈ ops, cmp q.1.Start q.1.End ≤ 0) (p : K) (v : V) :
    (((insertAll (NewContiguousIntervalTree cmp) ops).Insert (SimpleInterval p p) v).1 = false ↔
      ∃ x ∈ (insertAll (NewContiguousIntervalTree cmp) ops).Root.intervals,
        cmp x.Start p < 0 ∧ cmp p x.End < 0) ∧
    ((∀ x ∈ (insertAll (NewContiguousIntervalTree cmp) ops).Root.intervals,
        cmp x.Start x.End < 0 → ¬ (cmp x.Start p < 0 ∧ cmp p x.End < 0)) →
      ((insertAll (NewContiguousIntervalTree cmp) ops).Insert (SimpleInterval p p) v).1
        = true) := by
  have hcmp : (insertAll (NewContiguousIntervalTree (V := V) cmp) ops).Comparator = cmp :=
    insertAll_comparator _ _
  have hiff : ((insertAll (NewContiguousIntervalTree cmp) ops).Insert (SimpleInterval p p) v).1
      = false ↔ ∃ x ∈ (insertAll (NewContiguousIntervalTree cmp) ops).Root.intervals,
        cmp x.Start p < 0 ∧ cmp p x.End < 0 := by
    simp only [ContiguousIntervalTree.Insert, hcmp]
    constructor
    · intro h
      obtain ⟨x, hx, h1, h2⟩ := insertLoop_point_false hc p v _ h
      exact ⟨x, hx, (hc.neg_iff _ _).2 h1, (hc.neg_iff _ _).2 h2⟩
    · rintro ⟨x, hx, h1, h2⟩
      exact insertLoop_overlap hc (SimpleInterval p p) v _ (built_ordered hc ops hops) x hx
        ((hc.neg_iff _ _).1 h2) ((hc.neg_iff _ _).1 h1)
  refine ⟨hiff, fun hno => ?_⟩
  cases hres : ((insertAll (NewContiguousIntervalTree cmp) ops).Insert
      (SimpleInterval p p) v).1 with
  | true => rfl
  | false =>
    obtain ⟨x, hx, h1, h2⟩ := hiff.1 hres
    have hpos : cmp x.Start x.End < 0 :=
      (hc.neg_iff _ _).2 (lt_trans ((hc.neg_iff _ _).1 h1) ((hc.neg_iff _ _).1 h2))
    exact absurd ⟨h1, h2⟩ (hno x hx hpos)

/-- Witness for C9: the point `2` against the stored intervals `[1,3)` and `[3,3)`. -/
theorem zero_length_rejected_iff_witness :
    (((insertAll (NewContiguousIntervalTree CompareInt)
        [(SimpleInterval 1 3, "data"), (SimpleInterval 3 3, "data")]).Insert
        (SimpleInterval 2 2) "data").1 = false ↔
      ∃ x ∈ (insertAll (NewContiguousIntervalTree CompareInt)
        [(SimpleInterval 1 3, "data"), (SimpleInterval 3 3, "data")]).Root.intervals,
        CompareInt x.Start 2 < 0 ∧ CompareInt 2 x.End < 0) ∧
    ((∀ x ∈ (insertAll (NewContiguousIntervalTree CompareInt)
        [(SimpleInterval 1 3, "data"), (SimpleInterval 3 3, "data")]).Root.intervals,
        CompareInt x.Start x.End < 0 → ¬ (CompareInt x.Start 2 < 0 ∧ CompareInt 2 x.End < 0)) →
      ((insertAll (NewContiguousIntervalTree CompareInt)
        [(SimpleInterval 1 3, "data"), (SimpleInterval 3 3, "data")]).Insert
        (SimpleInterval 2 2) "data").1 = true) :=
  zero_length_rejected_iff CompareInt compareInt_totalOrder
    [(SimpleInterval 1 3, "data"), (SimpleInterval 3 3, "data")] (by decide) 2 "data"

/-- C10: after any sequence of `Insert` calls applied to an empty tree, `Size()` is the number
of those calls that returned `true` (`0` for the empty tree), and it is the number of stored
nodes, counted recursively as `size(left) + size(right) + 1` with `0` for a nil node. -/
theorem size_counts_successful_inserts (cmp : K → K → Int) (ops : List (Interval K × V)) :
    (insertAll (NewContiguousIntervalTree cmp) ops).Size
      = (insertResults (NewContiguousIntervalTree cmp) ops).count true ∧
    (NewContiguousIntervalTree cmp : ContiguousIntervalTree K V).Size = 0 ∧
    (insertAll (NewContiguousIntervalTree cmp) ops).Size
      = (insertAll (NewContiguousIntervalTree cmp) ops).Root.toList.length ∧
    (insertAll (NewContiguousIntervalTree cmp) ops).Size
      = (insertAll (NewContiguousIntervalTree cmp) ops).Root.size ∧
    (ContiguousIntervalNode.nil : ContiguousIntervalNode K V).size = 0 ∧
    (∀ (ci : Interval K) (cv : V) (l r : ContiguousIntervalNode K V),
      (ContiguousIntervalNode.node ci cv l r).size = l.size + r.size + 1) := by
  refine ⟨?_, rfl, ?_, size_eq_root_size _, rfl, fun _ _ _ _ => rfl⟩
  · rw [insertAll_size]
    show 0 + _ = _
    omega
  · rw [size_eq_root_size, size_eq_length_toList]

/-- C11: in a tree built from the empty tree by `Insert` calls with `Start ≤ End`, over a
total-order comparator, `NumIntervals() - Size()` is exactly the number of pairs of consecutive
stored intervals `x` then `y` (in in-order) with `x.end < y.start`; consequently
`NumIntervals() ≥ Size()`, with equality exactly when all consecutive stored intervals touch
(`x.end` equal to `y.start`). -/
theorem numIntervals_minus_size [LinearOrder K] (cmp : K → K → Int) (hc : TotalOrderCmp cmp)
    (zero : V) (ops : List (Interval K × V)) (hops : ∀ p ∈ ops, cmp p.1.Start p.1.End ≤ 0) :
    (insertAll (NewContiguousIntervalTree cmp) ops).NumIntervals zero
        - (insertAll (NewContiguousIntervalTree cmp) ops).Size
      = gapCount cmp (insertAll (NewContiguousIntervalTree cmp) ops).Root.intervals ∧
    (insertAll (NewContiguousIntervalTree cmp) ops).NumIntervals zero
      = (insertAll (NewContiguousIntervalTree cmp) ops).Size
        + gapCount cmp (insertAll (NewContiguousIntervalTree cmp) ops).Root.intervals ∧
    (insertAll (NewContiguousIntervalTree cmp) ops).NumIntervals zero
      ≥ (insertAll (NewContiguousIntervalTree cmp) ops).Size ∧
    ((insertAll (NewContiguousIntervalTree cmp) ops).NumIntervals zero
        = (insertAll (NewContiguousIntervalTree cmp) ops).Size ↔
      List.Chain' (fun x y => cmp x.End y.Start = 0)
        (insertAll (NewContiguousIntervalTree cmp) ops).Root.intervals) := by
  have hcmp : (insertAll (NewContiguousIntervalTree (V := V) cmp) ops).Comparator = cmp :=
    insertAll_comparator _ _
  have hnum := numIntervals_eq (insertAll (NewContiguousIntervalTree cmp) ops) zero
  rw [hcmp] at hnum
  obtain ⟨hp, _⟩ := ordered_sorted _ (built_ordered hc ops hops)
  refine ⟨by omega, hnum, by omega, ?_⟩
  rw [← gapCount_eq_zero_iff hc _ hp]
  omega

/-- Witness for C11: the stored intervals `[1,4)`, `[8,12)`, `[12,14)` of the size test. -/
theorem numIntervals_minus_size_witness :
    (insertAll (NewContiguousIntervalTree CompareInt)
        [(SimpleInterval 1 4, "data"), (SimpleInterval 8 12, "data"),
          (SimpleInterval 12 14, "data")]).NumIntervals ""
        - (insertAll (NewContiguousIntervalTree CompareInt)
        [(SimpleInterval 1 4, "data"), (SimpleInterval 8 12, "data"),
          (SimpleInterval 12 14, "data")]).Size
      = gapCount CompareInt (insertAll (NewContiguousIntervalTree CompareInt)
        [(SimpleInterval 1 4, "data"), (SimpleInterval 8 12, "data"),
          (SimpleInterval 12 14, "data")]).Root.intervals ∧
    gapCount CompareInt (insertAll (NewContiguousIntervalTree CompareInt)
        [(SimpleInterval 1 4, "data"), (SimpleInterval 8 12, "data"),
          (SimpleInterval 12 14, "data")]).Root.intervals = 1 :=
  ⟨(numIntervals_minus_size CompareInt compareInt_totalOrder ""
    [(SimpleInterval 1 4, "data"), (SimpleInterval 8 12, "data"),
      (SimpleInterval 12 14, "data")] (by decide)).1, by decide⟩

/-- C13: non-overlap invariant I2.  In a tree built from the empty tree by `Insert` calls with
`Start ≤ End`, over a total-order comparator, two stored intervals `[a,b)` and `[c,d)` held by
different nodes (different positions of the in-order list) do not overlap: `b ≤ c` or `d ≤ a`.
This holds for every two stored intervals, in particular for those of positive length. -/
theorem stored_intervals_disjoint [LinearOrder K] (cmp : K → K → Int)
    (hc : TotalOrderCmp cmp) (ops : List (Interval K × V))
    (hops : ∀ p ∈ ops, cmp p.1.Start p.1.End ≤ 0)
    (i j : Fin (insertAll (NewContiguousIntervalTree cmp) ops).Root.intervals.length)
    (hij : i ≠ j) :
    cmp ((insertAll (NewContiguousIntervalTree cmp) ops).Root.intervals.get i).End
        ((insertAll (NewContiguousIntervalTree cmp) ops).Root.intervals.get j).Start ≤ 0 ∨
    cmp ((insertAll (NewContiguousIntervalTree cmp) ops).Root.intervals.get j).End
        ((insertAll (NewContiguousIntervalTree cmp) ops).Root.intervals.get i).Start ≤ 0 := by
  obtain ⟨hp, _⟩ := ordered_sorted _ (built_ordered hc ops hops)
  have hget := List.pairwise_iff_get.1 hp
  rcases lt_or_gt_of_ne hij with h | h
  · exact Or.inl ((hc.le_iff _ _).2 (hget i j h))
  · exact Or.inr ((hc.le_iff _ _).2 (hget j i h))

/-- Witness for C13: the stored intervals `[1,4)` and `[8,12)`. -/
theorem stored_intervals_disjoint_witness :
    CompareInt ((insertAll (NewContiguousIntervalTree CompareInt)
        [(SimpleInterval 8 12, "data"), (SimpleInterval 1 4, "data")]).Root.intervals.get
          ⟨0, by decide⟩).End
      ((insertAll (NewContiguousIntervalTree CompareInt)
        [(SimpleInterval 8 12, "data"), (SimpleInterval 1 4, "data")]).Root.intervals.get
          ⟨1, by decide⟩).Start ≤ 0 ∨
    CompareInt ((insertAll (NewContiguousIntervalTree CompareInt)
        [(SimpleInterval 8 12, "data"), (SimpleInterval 1 4, "data")]).Root.intervals.get
          ⟨1, by decide⟩).End
      ((insertAll (NewContiguousIntervalTree CompareInt)
        [(SimpleInterval 8 12, "data"), (SimpleInterval 1 4, "data")]).Root.intervals.get
          ⟨0, by decide⟩).Start ≤ 0 :=
  stored_intervals_disjoint CompareInt compareInt_totalOrder
    [(SimpleInterval 8 12, "data"), (SimpleInterval 1 4, "data")] (by decide)
    ⟨0, by decide⟩ ⟨1, by decide⟩ (by decide)

/-- C17: ordering invariant I1.  Every tree built from the empty tree by `Insert` calls
satisfies I1: at each node, every interval of the left subtree has `start ≤ node.start` and
`end ≤ node.start`, and every interval of the right subtree has `start ≥ node.end`; and
`Insert` preserves I1 on any tree that satisfies it, whether the call succeeds or not.  No
assumption on the comparator or on the inserted intervals is needed. -/
theorem ordering_invariant (cmp : K → K → Int) (ops : List (Interval K × V))
    (t : ContiguousIntervalTree K V) (i : Interval K) (v : V)
    (ht : OrderingI1 t.Comparator t.Root) :
    OrderingI1 cmp (insertAll (NewContiguousIntervalTree cmp) ops).Root ∧
    OrderingI1 t.Comparator (t.Insert i v).2.Root :=
  ⟨insertAll_orderingI1 (NewContiguousIntervalTree cmp) ops trivial,
    insertLoop_orderingI1 t.Comparator i v t.Root ht⟩

/-- Witness for C17: `[2,3)` inserted into the tree holding `[6,9)`, `[1,2)` and `[3,4)`. -/
theorem ordering_invariant_witness :
    OrderingI1 CompareInt (insertAll (NewContiguousIntervalTree CompareInt)
      [(SimpleInterval 6 9, "data"), (SimpleInterval 1 2, "data"),
        (SimpleInterval 3 4, "data")]).Root ∧
    OrderingI1 CompareInt ((insertAll (NewContiguousIntervalTree CompareInt)
      [(SimpleInterval 6 9, "data"), (SimpleInterval 1 2, "data"),
        (SimpleInterval 3 4, "data")]).Insert (SimpleInterval 2 3) "data").2.Root :=
  ordering_invariant CompareInt
    [(SimpleInterval 6 9, "data"), (SimpleInterval 1 2, "data"), (SimpleInterval 3 4, "data")]
    (insertAll (NewContiguousIntervalTree CompareInt)
      [(SimpleInterval 6 9, "data"), (SimpleInterval 1 2, "data"),
        (SimpleInterval 3 4, "data")])
    (SimpleInterval 2 3) "data"
    (by simp [OrderingI1, insertAll, ContiguousIntervalTree.Insert, insertLoop,
      NewContiguousIntervalTree, SimpleInterval, CompareInt, ContiguousIntervalNode.intervals,
      ContiguousIntervalNode.toList])

/-- C18: exact rejection condition.  In a tree built from the empty tree by `Insert` calls with
`Start ≤ End`, over a total-order comparator, inserting a candidate `[s,e)` returns `false` if
and only if some interval `[a,b)` stored anywhere in the tree satisfies `s ≤ a ∧ a < e` or
`a < s ∧ s < b`; so overlap is the only reason an `Insert` fails.  The candidate's `s ≤ e` is
not needed. -/
theorem insert_rejected_iff [LinearOrder K] (cmp : K → K → Int) (hc : TotalOrderCmp cmp)
    (ops : List (Interval K × V)) (hops : ∀ p ∈ ops, cmp p.1.Start p.1.End ≤ 0)
    (i : Interval K) (v : V) :
    ((insertAll (NewContiguousIntervalTree cmp) ops).Insert i v).1 = false ↔
      ∃ x ∈ (insertAll (NewContiguousIntervalTree cmp) ops).Root.intervals,
        (cmp i.Start x.Start ≤ 0 ∧ cmp x.Start i.End < 0) ∨
          (cmp x.Start i.Start < 0 ∧ cmp i.Start x.End < 0) := by
  have hcmp : (insertAll (NewContiguousIntervalTree (V := V) cmp) ops).Comparator = cmp :=
    insertAll_comparator _ _
  simp only [ContiguousIntervalTree.Insert, hcmp]
  rw [insertLoop_false_iff hc i v _ (built_ordered hc ops hops)]
  simp only [hc.le_iff, hc.neg_iff]

/-- Witness for C18: the candidate `[1,3)` against the stored zero-length intervals
`[2,2)`, `[3,3)` and `[1,1)`. -/
theorem insert_rejected_iff_witness :
    ((insertAll (NewContiguousIntervalTree CompareInt)
        [(SimpleInterval 2 2, "data"), (SimpleInterval 3 3, "data"),
          (SimpleInterval 1 1, "data")]).Insert (SimpleInterval 1 3) "data").1 = false ↔
      ∃ x ∈ (insertAll (NewContiguousIntervalTree CompareInt)
        [(SimpleInterval 2 2, "data"), (SimpleInterval 3 3, "data"),
          (SimpleInterval 1 1, "data")]).Root.intervals,
        (CompareInt 1 x.Start ≤ 0 ∧ CompareInt x.Start 3 < 0) ∨
          (CompareInt x.Start 1 < 0 ∧ CompareInt 1 x.End < 0) :=
  insert_rejected_iff CompareInt compareInt_totalOrder
    [(SimpleInterval 2 2, "data"), (SimpleInterval 3 3, "data"), (SimpleInterval 1 1, "data")]
    (by decide) (SimpleInterval 1 3) "data"

/-- C14: the stack is LIFO.  For every stack `s` and items `x1, ..., xn` with `n ≥ 1` (written
`init ++ [xn]`): after `Push(x1, ..., xn)` the size is the old size plus `n`; `Peek` returns
`(xn, true)` and leaves the stack as it is; and `n` successive `Pop` calls return `(xn, true)`,
..., `(x1, true)` in that order and leave exactly the stack `s` of before the `Push`. -/
theorem stack_lifo {A : Type} (zero : A) (s : Stack A) (init : List A) (xn : A) :
    (s.Push (init ++ [xn])).Size = s.Size + (init ++ [xn]).length ∧
    Stack.Peek zero (s.Push (init ++ [xn])) = ((xn, true), s.Push (init ++ [xn])) ∧
    Stack.popN zero (init ++ [xn]).length (s.Push (init ++ [xn]))
      = ((init ++ [xn]).reverse.map (fun x => (x, true)), s) := by
  refine ⟨?_, ?_, ?_⟩
  · simp [Stack.Push, Stack.Size]
  · unfold Stack.Push
    rw [← List.append_assoc]
    exact peek_push_one zero (s ++ init) xn
  · exact popN_push zero s (init ++ [xn])

/-- C15: on an empty stack, freshly created by `NewStack` or obtained from any stack by
`Reset` (both hold no item), `Pop` and `Peek` both return `(zero value, false)` and leave the
stack empty, holding no item, with `Size() = 0` and `IsEmpty() = true`; and on every non-empty
stack, one that holds at least one item, `Pop` and `Peek` return `true` as their second result:
a stack either holds no item or both calls return `true`. -/
theorem stack_empty {A : Type} (zero : A) (s : Stack A) :
    (NewStack : Stack A) = [] ∧
    s.Reset = [] ∧
    (Stack.Pop zero (NewStack : Stack A)).1 = (zero, false) ∧
    (Stack.Peek zero (NewStack : Stack A)).1 = (zero, false) ∧
    (Stack.Pop zero (NewStack : Stack A)).2 = [] ∧
    (Stack.Pop zero (NewStack : Stack A)).2.Size = 0 ∧
    (Stack.Pop zero (NewStack : Stack A)).2.IsEmpty = true ∧
    (Stack.Peek zero (NewStack : Stack A)).2 = [] ∧
    (Stack.Peek zero (NewStack : Stack A)).2.Size = 0 ∧
    (Stack.Peek zero (NewStack : Stack A)).2.IsEmpty = true ∧
    (Stack.Pop zero s.Reset).1 = (zero, false) ∧
    (Stack.Peek zero s.Reset).1 = (zero, false) ∧
    (Stack.Pop zero s.Reset).2 = [] ∧
    (Stack.Pop zero s.Reset).2.Size = 0 ∧
    (Stack.Pop zero s.Reset).2.IsEmpty = true ∧
    (Stack.Peek zero s.Reset).2 = [] ∧
    (Stack.Peek zero s.Reset).2.Size = 0 ∧
    (Stack.Peek zero s.Reset).2.IsEmpty = true ∧
    (s = [] ∨ ((Stack.Pop zero s).1.2 = true ∧ (Stack.Peek zero s).1.2 = true)) := by
  have hreset : s.Reset = ([] : List A) := by simp [Stack.Reset]
  rw [hreset]
  refine ⟨rfl, rfl, rfl, rfl, rfl, rfl, rfl, rfl, rfl, rfl, rfl, rfl, rfl, rfl, rfl, rfl, rfl,
    rfl, ?_⟩
  cases s with
  | nil => exact Or.inl rfl
  | cons x xs =>
    have hne : Stack.IsEmpty (x :: xs) = false := by
      simp [Stack.IsEmpty, Stack.Size]
    exact Or.inr ⟨by simp [Stack.Pop, hne], by simp [Stack.Peek, hne]⟩

/-- C20: `Insert` acceptance depends on the insertion order.  With `A = [1,3)` and `B = [1,1)`,
inserting `A` then `B` into an empty tree accepts both (`Size() = 2`), while inserting `B` then
`A` rejects `A` (`Size() = 1`); the same inserted intervals give different stored intervals. -/
theorem insert_order_dependence :
    insertResults (NewContiguousIntervalTree CompareInt)
      [(SimpleInterval 1 3, "A"), (SimpleInterval 1 1, "B")] = [true, true] ∧
    (insertAll (NewContiguousIntervalTree CompareInt)
      [(SimpleInterval 1 3, "A"), (SimpleInterval 1 1, "B")]).Size = 2 ∧
    insertResults (NewContiguousIntervalTree CompareInt)
      [(SimpleInterval 1 1, "B"), (SimpleInterval 1 3, "A")] = [true, false] ∧
    (insertAll (NewContiguousIntervalTree CompareInt)
      [(SimpleInterval 1 1, "B"), (SimpleInterval 1 3, "A")]).Size = 1 ∧
    (insertAll (NewContiguousIntervalTree CompareInt)
      [(SimpleInterval 1 3, "A"), (SimpleInterval 1 1, "B")]).Root.intervals
      = [SimpleInterval 1 1, SimpleInterval 1 3] ∧
    (insertAll (NewContiguousIntervalTree CompareInt)
      [(SimpleInterval 1 1, "B"), (SimpleInterval 1 3, "A")]).Root.intervals
      = [SimpleInterval 1 1] := by
  decide

/-- C19: in a tree built from the empty tree by `Insert` calls with `Start ≤ End`, over a
total-order comparator, `search(p)` has one of three outcomes.  It returns a node if and only
if some stored interval satisfies `start ≤ p ≤ end`, and the node returned is a node of the
tree whose interval satisfies `start ≤ p ≤ end`.  It returns the valueless sentinel if and only
if no stored interval contains `p` in that sense and `p` lies strictly between the smallest
stored start and the largest stored end.  It returns nil if and only if the tree is empty, `p`
is before the smallest stored start, or `p` is after the largest stored end. -/
theorem search_outcomes [LinearOrder K] (cmp : K → K → Int) (hc : TotalOrderCmp cmp)
    (ops : List (Interval K × V)) (hops : ∀ q ∈ ops, cmp q.1.Start q.1.End ≤ 0) (p : K) :
    ((∃ n, (insertAll (NewContiguousIntervalTree cmp) ops).search p = .found n) ↔
      ∃ x ∈ (insertAll (NewContiguousIntervalTree cmp) ops).Root.intervals,
        cmp x.Start p ≤ 0 ∧ cmp p x.End ≤ 0) ∧
    (∀ n, (insertAll (NewContiguousIntervalTree cmp) ops).search p = .found n →
      n ∈ (insertAll (NewContiguousIntervalTree cmp) ops).Root.nodes ∧
        ∃ ci cv l r, n = .node ci cv l r ∧ cmp ci.Start p ≤ 0 ∧ cmp p ci.End ≤ 0) ∧
    ((insertAll (NewContiguousIntervalTree cmp) ops).search p = .sentinel ↔
      (¬ ∃ x ∈ (insertAll (NewContiguousIntervalTree cmp) ops).Root.intervals,
        cmp x.Start p ≤ 0 ∧ cmp p x.End ≤ 0) ∧
      ∃ lo hi,
        minStartOf cmp (insertAll (NewContiguousIntervalTree cmp) ops).Root.intervals = some lo ∧
        maxEndOf cmp (insertAll (NewContiguousIntervalTree cmp) ops).Root.intervals = some hi ∧
        cmp lo p < 0 ∧ cmp p hi < 0) ∧
    ((insertAll (NewContiguousIntervalTree cmp) ops).search p = .absent ↔
      (insertAll (NewContiguousIntervalTree cmp) ops).Root = .nil ∨
      (∃ lo, minStartOf cmp (insertAll (NewContiguousIntervalTree cmp) ops).Root.intervals = some lo ∧
        cmp p lo < 0) ∨
      (∃ hi, maxEndOf cmp (insertAll (NewContiguousIntervalTree cmp) ops).Root.intervals = some hi ∧
        cmp hi p < 0)) := by
  have hcmp : (insertAll (NewContiguousIntervalTree (V := V) cmp) ops).Comparator = cmp :=
    insertAll_comparator _ _
  have hc2 : TotalOrderCmp (insertAll (NewContiguousIntervalTree (V := V) cmp) ops).Comparator := by
    rw [hcmp]; exact hc
  have ho := built_ordered hc ops hops
  obtain ⟨_, hs⟩ := ordered_sorted _ ho
  have hfound : (∃ n, (insertAll (NewContiguousIntervalTree cmp) ops).search p = .found n) ↔
      ∃ x ∈ (insertAll (NewContiguousIntervalTree cmp) ops).Root.intervals,
        cmp x.Start p ≤ 0 ∧ cmp p x.End ≤ 0 := by
    unfold ContiguousIntervalTree.search
    rw [hcmp, searchLoop_found_iff hc p _ ho 0 0]
    simp only [hc.le_iff]
  have hfind := find_true_iff _ hc2 ho p
  rw [hcmp] at hfind
  have habs : (insertAll (NewContiguousIntervalTree cmp) ops).search p = .absent ↔
      ¬ ∃ lo hi, minStartOf cmp (insertAll (NewContiguousIntervalTree cmp) ops).Root.intervals = some lo ∧
        maxEndOf cmp (insertAll (NewContiguousIntervalTree cmp) ops).Root.intervals = some hi ∧ lo ≤ p ∧ p ≤ hi := by
    rw [← hfind]
    have h1 := find_eq_false_iff (insertAll (NewContiguousIntervalTree cmp) ops) p
    unfold ContiguousIntervalTree.search
    rw [← h1]
    simp
  have hbounds : (insertAll (NewContiguousIntervalTree cmp) ops).Root ≠ .nil →
      ∃ lo hi, minStartOf cmp (insertAll (NewContiguousIntervalTree cmp) ops).Root.intervals = some lo ∧
        maxEndOf cmp (insertAll (NewContiguousIntervalTree cmp) ops).Root.intervals = some hi := by
    intro hne
    have hint := intervals_ne_nil hne
    cases hlo : minStartOf cmp (insertAll (NewContiguousIntervalTree cmp) ops).Root.intervals with
    | none => exact absurd (minStartOf_eq_none _ hlo) hint
    | some lo =>
      cases hhi : maxEndOf cmp (insertAll (NewContiguousIntervalTree cmp) ops).Root.intervals with
      | none => exact absurd (maxEndOf_eq_none _ hhi) hint
      | some hi => exact ⟨lo, hi, rfl, rfl⟩
  have habs2 : (insertAll (NewContiguousIntervalTree cmp) ops).search p = .absent ↔
      (insertAll (NewContiguousIntervalTree cmp) ops).Root = .nil ∨
      (∃ lo, minStartOf cmp (insertAll (NewContiguousIntervalTree cmp) ops).Root.intervals = some lo ∧ cmp p lo < 0) ∨
      (∃ hi, maxEndOf cmp (insertAll (NewContiguousIntervalTree cmp) ops).Root.intervals = some hi ∧ cmp hi p < 0) := by
    rw [habs]
    constructor
    · intro hno
      by_cases hne : (insertAll (NewContiguousIntervalTree cmp) ops).Root = .nil
      · exact Or.inl hne
      · obtain ⟨lo, hi, hlo, hhi⟩ := hbounds hne
        by_cases h1 : lo ≤ p
        · by_cases h2 : p ≤ hi
          · exact absurd ⟨lo, hi, hlo, hhi, h1, h2⟩ hno
          · exact Or.inr (Or.inr ⟨hi, hhi, (hc.neg_iff _ _).2 (not_le.1 h2)⟩)
        · exact Or.inr (Or.inl ⟨lo, hlo, (hc.neg_iff _ _).2 (not_le.1 h1)⟩)
    · rintro (hnil | ⟨lo, hlo, hlt⟩ | ⟨hi, hhi, hlt⟩)
      · rintro ⟨lo, hi, hlo, _⟩
        rw [hnil] at hlo
        cases hlo
      · rintro ⟨lo2, hi2, hlo2, _, h1, _⟩
        rw [hlo] at hlo2
        cases hlo2
        exact absurd ((hc.neg_iff _ _).1 hlt) (not_lt.2 h1)
      · rintro ⟨lo2, hi2, _, hhi2, _, h2⟩
        rw [hhi] at hhi2
        cases hhi2
        exact absurd ((hc.neg_iff _ _).1 hlt) (not_lt.2 h2)
  refine ⟨hfound, ?_, ?_, habs2⟩
  · intro n hn
    unfold ContiguousIntervalTree.search at hn
    rw [hcmp] at hn
    obtain ⟨hmem, ci, cv, l, r, hnode, h1, h2⟩ := searchLoop_found cmp p _ 0 0 n hn
    refine ⟨hmem, ci, cv, l, r, hnode, ?_, ?_⟩
    · exact (hc.le_iff _ _).2 (not_lt.1 (fun hh => h1 ((hc.neg_iff _ _).2 hh)))
    · exact (hc.le_iff _ _).2 (not_lt.1 (fun hh => h2 ((hc.pos_iff _ _).2 hh)))
  · constructor
    · intro hsent
      have hnf : ¬ ∃ x ∈ (insertAll (NewContiguousIntervalTree cmp) ops).Root.intervals,
          cmp x.Start p ≤ 0 ∧ cmp p x.End ≤ 0 := by
        rw [← hfound]
        rintro ⟨n, hn⟩
        rw [hsent] at hn
        cases hn
      have hna : ¬ (insertAll (NewContiguousIntervalTree cmp) ops).search p = .absent := by
        rw [hsent]; intro hh; cases hh
      rw [habs, not_not] at hna
      obtain ⟨lo, hi, hlo, hhi, h1, h2⟩ := hna
      refine ⟨hnf, lo, hi, hlo, hhi, ?_, ?_⟩
      · obtain ⟨x, hx, hxe⟩ := minStartOf_mem _ lo hlo
        rw [hc.neg_iff]
        refine lt_of_le_of_ne h1 (fun heq => hnf ⟨x, hx, ?_, ?_⟩)
        · rw [hc.le_iff, hxe]; exact h1
        · rw [hc.le_iff, ← heq, ← hxe]; exact hs x hx
      · obtain ⟨x, hx, hxe⟩ := maxEndOf_mem _ hi hhi
        rw [hc.neg_iff]
        refine lt_of_le_of_ne h2 (fun heq => hnf ⟨x, hx, ?_, ?_⟩)
        · rw [hc.le_iff, heq, ← hxe]; exact hs x hx
        · rw [hc.le_iff, hxe]; exact h2
    · rintro ⟨hnf, lo, hi, hlo, hhi, h1, h2⟩
      cases hres : (insertAll (NewContiguousIntervalTree cmp) ops).search p with
      | sentinel => rfl
      | absent =>
        exact absurd ⟨lo, hi, hlo, hhi, ((hc.neg_iff _ _).1 h1).le, ((hc.neg_iff _ _).1 h2).le⟩
          (habs.1 hres)
      | found n => exact absurd (hfound.1 ⟨n, hres⟩) hnf

/-- Witness for C19: the point `5` against the stored intervals `[1,3)` and `[6,8)`; the
search returns the sentinel. -/
theorem search_outcomes_witness :
    (((∃ n, (insertAll (NewContiguousIntervalTree CompareInt)
        [(SimpleInterval 1 3, "data"), (SimpleInterval 6 8, "data")]).search 5 = .found n) ↔
      ∃ x ∈ (insertAll (NewContiguousIntervalTree CompareInt)
        [(SimpleInterval 1 3, "data"), (SimpleInterval 6 8, "data")]).Root.intervals,
        CompareInt x.Start 5 ≤ 0 ∧ CompareInt 5 x.End ≤ 0) ∧
    (∀ n, (insertAll (NewContiguousIntervalTree CompareInt)
        [(SimpleInterval 1 3, "data"), (SimpleInterval 6 8, "data")]).search 5 = .found n →
      n ∈ (insertAll (NewContiguousIntervalTree CompareInt)
        [(SimpleInterval 1 3, "data"), (SimpleInterval 6 8, "data")]).Root.nodes ∧
        ∃ ci cv l r, n = .node ci cv l r ∧ CompareInt ci.Start 5 ≤ 0 ∧ CompareInt 5 ci.End ≤ 0) ∧
    ((insertAll (NewContiguousIntervalTree CompareInt)
        [(SimpleInterval 1 3, "data"), (SimpleInterval 6 8, "data")]).search 5 = .sentinel ↔
      (¬ ∃ x ∈ (insertAll (NewContiguousIntervalTree CompareInt)
        [(SimpleInterval 1 3, "data"), (SimpleInterval 6 8, "data")]).Root.intervals,
        CompareInt x.Start 5 ≤ 0 ∧ CompareInt 5 x.End ≤ 0) ∧
      ∃ lo hi,
        minStartOf CompareInt (insertAll (NewContiguousIntervalTree CompareInt)
        [(SimpleInterval 1 3, "data"), (SimpleInterval 6 8, "data")]).Root.intervals = some lo ∧
        maxEndOf CompareInt (insertAll (NewContiguousIntervalTree CompareInt)
        [(SimpleInterval 1 3, "data"), (SimpleInterval 6 8, "data")]).Root.intervals = some hi ∧
        CompareInt lo 5 < 0 ∧ CompareInt 5 hi < 0) ∧
    ((insertAll (NewContiguousIntervalTree CompareInt)
        [(SimpleInterval 1 3, "data"), (SimpleInterval 6 8, "data")]).search 5 = .absent ↔
      (insertAll (NewContiguousIntervalTree CompareInt)
        [(SimpleInterval 1 3, "data"), (SimpleInterval 6 8, "data")]).Root = .nil ∨
      (∃ lo, minStartOf CompareInt (insertAll (NewContiguousIntervalTree CompareInt)
        [(SimpleInterval 1 3, "data"), (SimpleInterval 6 8, "data")]).Root.intervals = some lo ∧
        CompareInt 5 lo < 0) ∨
      (∃ hi, maxEndOf CompareInt (insertAll (NewContiguousIntervalTree CompareInt)
        [(SimpleInterval 1 3, "data"), (SimpleInterval 6 8, "data")]).Root.intervals = some hi ∧
        CompareInt hi 5 < 0))) ∧
    (insertAll (NewContiguousIntervalTree CompareInt)
        [(SimpleInterval 1 3, "data"), (SimpleInterval 6 8, "data")]).search 5 = .sentinel :=
  ⟨search_outcomes CompareInt compareInt_totalOrder
    [(SimpleInterval 1 3, "data"), (SimpleInterval 6 8, "data")] (by decide) 5, by decide⟩

/-- Counterexample to C12 as stated: with `[1,1)` and `[3,4)` stored, `TraverseInOrder` emits
the synthetic gap `[1,3)`, yet inserting `[1,3)` returns `false`: it starts at the stored
zero-length interval `[1,1)` and extends past it. -/
theorem fill_gap_counterexample :
    (∀ q ∈ [(SimpleInterval (1 : Int) 1, "data"), (SimpleInterval 3 4, "data")],
      CompareInt q.1.Start q.1.End ≤ 0) ∧
    (insertAll (NewContiguousIntervalTree CompareInt)
      [(SimpleInterval 1 1, "data"), (SimpleInterval 3 4, "data")]).TraverseInOrder ""
      = [(SimpleInterval 1 1, "data"), (SimpleInterval 1 3, ""), (SimpleInterval 3 4, "data")] ∧
    ((insertAll (NewContiguousIntervalTree CompareInt)
      [(SimpleInterval 1 1, "data"), (SimpleInterval 3 4, "data")]).Insert
        (SimpleInterval 1 3) "data").1 = false := by
  decide

/-- C12 (amended): in a tree built from the empty tree by `Insert` calls with `Start ≤ End`,
over a total-order comparator, let `x` then `y` be consecutive stored intervals with
`x.end < y.start`, so that `TraverseInOrder` emits the synthetic gap `[x.end, y.start)`.  When
`x` has positive length, inserting exactly that gap returns `true`, increases `Size()` by one
and leaves `NumIntervals()` unchanged; when `x` has zero length, the insertion returns `false`
and the tree is unchanged. -/
theorem fill_gap [LinearOrder K] (cmp : K → K → Int) (hc : TotalOrderCmp cmp) (zero : V)
    (ops : List (Interval K × V)) (hops : ∀ q ∈ ops, cmp q.1.Start q.1.End ≤ 0)
    (pre post : List (Interval K × V)) (x y : Interval K × V) (v : V)
    (hsplit : (insertAll (NewContiguousIntervalTree cmp) ops).Root.toList
      = pre ++ x :: y :: post)
    (hgap : cmp x.1.End y.1.Start < 0) :
    (SimpleInterval x.1.End y.1.Start, zero)
      ∈ (insertAll (NewContiguousIntervalTree cmp) ops).TraverseInOrder zero ∧
    (cmp x.1.Start x.1.End < 0 →
      ((insertAll (NewContiguousIntervalTree cmp) ops).Insert
        (SimpleInterval x.1.End y.1.Start) v).1 = true ∧
      ((insertAll (NewContiguousIntervalTree cmp) ops).Insert
        (SimpleInterval x.1.End y.1.Start) v).2.Size
        = (insertAll (NewContiguousIntervalTree cmp) ops).Size + 1 ∧
      ((insertAll (NewContiguousIntervalTree cmp) ops).Insert
        (SimpleInterval x.1.End y.1.Start) v).2.NumIntervals zero
        = (insertAll (NewContiguousIntervalTree cmp) ops).NumIntervals zero) ∧
    (cmp x.1.Start x.1.End = 0 →
      ((insertAll (NewContiguousIntervalTree cmp) ops).Insert
        (SimpleInterval x.1.End y.1.Start) v).1 = false ∧
      ((insertAll (NewContiguousIntervalTree cmp) ops).Insert
        (SimpleInterval x.1.End y.1.Start) v).2
        = (insertAll (NewContiguousIntervalTree cmp) ops)) := by
  have hcmp : (insertAll (NewContiguousIntervalTree (V := V) cmp) ops).Comparator = cmp :=
    insertAll_comparator _ _
  have hc2 : TotalOrderCmp (insertAll (NewContiguousIntervalTree (V := V) cmp) ops).Comparator := by
    rw [hcmp]; exact hc
  have ho := built_ordered hc ops hops
  have hlt : x.1.End < y.1.Start := (hc.neg_iff _ _).1 hgap
  refine ⟨?_, ?_, ?_⟩
  · rw [traverseInOrder_eq, hcmp, hsplit]
    exact mem_referenceTraversal_gap cmp zero x y post hgap pre
  · intro hpos
    have hres := fill_gap_accepted _ hc2 ho pre post x y v hsplit hlt ((hc.neg_iff _ _).1 hpos)
    exact ⟨hres, insert_true_size _ _ v hres,
      fill_gap_numIntervals _ hc2 ho zero pre post x y v hsplit hlt hres⟩
  · intro hzero
    have hres := fill_gap_rejected _ hc2 ho pre post x y v hsplit hlt ((hc.zero_iff _ _).1 hzero)
    exact ⟨hres, insert_false_unchanged _ _ v hres⟩

/-- Witness for C12 (amended): the gap `[4,8)` between the stored `[1,4)` and `[8,12)`. -/
theorem fill_gap_witness :
    (SimpleInterval (4 : Int) 8, "")
      ∈ (insertAll (NewContiguousIntervalTree CompareInt)
        [(SimpleInterval 1 4, "data"), (SimpleInterval 8 12, "data")]).TraverseInOrder "" ∧
    ((insertAll (NewContiguousIntervalTree CompareInt)
        [(SimpleInterval 1 4, "data"), (SimpleInterval 8 12, "data")]).Insert
        (SimpleInterval 4 8) "data").1 = true ∧
    ((insertAll (NewContiguousIntervalTree CompareInt)
        [(SimpleInterval 1 4, "data"), (SimpleInterval 8 12, "data")]).Insert
        (SimpleInterval 4 8) "data").2.Size
      = (insertAll (NewContiguousIntervalTree CompareInt)
        [(SimpleInterval 1 4, "data"), (SimpleInterval 8 12, "data")]).Size + 1 ∧
    ((insertAll (NewContiguousIntervalTree CompareInt)
        [(SimpleInterval 1 4, "data"), (SimpleInterval 8 12, "data")]).Insert
        (SimpleInterval 4 8) "data").2.NumIntervals ""
      = (insertAll (NewContiguousIntervalTree CompareInt)
        [(SimpleInterval 1 4, "data"), (SimpleInterval 8 12, "data")]).NumIntervals "" :=
  ⟨(fill_gap CompareInt compareInt_totalOrder ""
      [(SimpleInterval 1 4, "data"), (SimpleInterval 8 12, "data")] (by decide)
      [] [] (SimpleInterval 1 4, "data") (SimpleInterval 8 12, "data") "data"
      (by decide) (by decide)).1,
    (fill_gap CompareInt compareInt_totalOrder ""
      [(SimpleInterval 1 4, "data"), (SimpleInterval 8 12, "data")] (by decide)
      [] [] (SimpleInterval 1 4, "data") (SimpleInterval 8 12, "data") "data"
      (by decide) (by decide)).2.1 (by decide)⟩

/-- C16: for every list `xs` of values inserted one by one into an empty `BinaryTree` whose
comparator is a total preorder, `TraverseInOrder` visits a permutation of `xs` that is sorted
non-decreasingly by the comparator, and the values that compare equal to any given value are
visited in their insertion order; the traversal is the stable insertion sort of `xs`. -/
theorem binaryTree_stable_sort {A : Type} (cmp : A → A → Int) (hc : TotalPreorderCmp cmp)
    (xs : List A) :
    ((BinaryTree.insertAll (NewBinaryTree cmp) xs).TraverseInOrder).Perm xs ∧
    ((BinaryTree.insertAll (NewBinaryTree cmp) xs).TraverseInOrder).Pairwise
      (fun a b => cmp a b ≤ 0) ∧
    (∀ a : A,
      ((BinaryTree.insertAll (NewBinaryTree cmp) xs).TraverseInOrder).filter
          (fun b => decide (cmp b a = 0))
        = xs.filter (fun b => decide (cmp b a = 0))) ∧
    (BinaryTree.insertAll (NewBinaryTree cmp) xs).TraverseInOrder = stableSort cmp [] xs := by
  have hout : (BinaryTree.insertAll (NewBinaryTree cmp) xs).TraverseInOrder
      = stableSort cmp [] xs := by
    unfold BinaryTree.TraverseInOrder
    rw [binary_inOrder_eq, List.nil_append,
      binary_insertAll_toList hc xs (NewBinaryTree cmp) rfl List.Pairwise.nil]
    rfl
  rw [hout]
  refine ⟨by simpa using @stableSort_perm A cmp xs [], ?_, ?_, rfl⟩
  · exact stableSort_sorted hc xs [] List.Pairwise.nil
  · intro a
    simpa using stableSort_filter hc a xs [] List.Pairwise.nil

/-- Witness for C16: records compared by key only; the records with key `3` keep their
insertion order `a`, `c`, `f`. -/
theorem binaryTree_stable_sort_witness :
    (BinaryTree.insertAll (NewBinaryTree compareKey)
      [(3, "a"), (1, "b"), (3, "c"), (2, "d"), (1, "e"), (3, "f")]).TraverseInOrder
      = stableSort compareKey [] [(3, "a"), (1, "b"), (3, "c"), (2, "d"), (1, "e"), (3, "f")] ∧
    (BinaryTree.insertAll (NewBinaryTree compareKey)
      [(3, "a"), (1, "b"), (3, "c"), (2, "d"), (1, "e"), (3, "f")]).TraverseInOrder
      = [(1, "b"), (1, "e"), (2, "d"), (3, "a"), (3, "c"), (3, "f")] :=
  ⟨(binaryTree_stable_sort compareKey compareKey_totalPreorder
    [(3, "a"), (1, "b"), (3, "c"), (2, "d"), (1, "e"), (3, "f")]).2.2.2, by decide⟩

end Claims

end ds
